/-
  Verification development for the diff/patch engine in `doctor/diff.go`
  (Myers O(ND) shortest-edit-script diff and unified-diff rendering).

  Go strings are modelled as lists of characters (`Str`), so `len` is list
  length and string equality is list equality.  Go slice/index panics are
  modelled by `Option`: a function returns `none` exactly when the Go code
  would panic.  Loops are modelled by structural recursion; where the Go
  loop has a syntactic iteration bound, the model passes that bound as an
  explicit countdown argument so that every definition computes by `decide`.

  The collaborating `EditSet` type lives in a file that is not part of the
  sources (only `diff.go` is); its operations used here are modelled from
  the spec and are marked `Modelled from the spec:` in their doc comments.
-/
import Mathlib

namespace Godoctor

/-- A Go string: a finite sequence of characters. -/
abbrev Str := List Char

/-- `strings.Join(ss, "")`: concatenation of a sequence of strings. -/
def strJoin (ss : List Str) : Str := ss.flatten

/-- The `OffsetLength` pair `{offset, length}` describing a text region. -/
structure OffsetLength where
  Offset : Nat
  Length : Nat
deriving Repr, DecidableEq

/-- Modelled from the spec: an `Edit` is
`{offset: non-negative integer, length: non-negative integer, replacement: text}`,
"replace `length` characters starting at `offset` with `replacement`".
(The `edit` type lives in the collaborating EditSet file, absent from the
sources; field names follow the uses in `diff.go`.) -/
structure edit where
  Offset : Nat
  Length : Nat
  replacement : Str
deriving Repr, DecidableEq

/-- Offset one past the end of the region affected by an edit. -/
def edit.OffsetPastEnd (e : edit) : Nat := e.Offset + e.Length

/-- Modelled from the spec: a hunk stores its edits "relative to startOffset",
so `RelativeToOffset` shifts an edit's offset down by the given base. -/
def edit.RelativeToOffset (e : edit) (base : Nat) : edit :=
  { e with Offset := e.Offset - base }

/-- Modelled from the spec: an `EditSet` is a "mapping from file identity to
an ordered sequence of Edits", kept "sorted ascending by offset". -/
structure editSet where
  edits : List (String × List edit)
deriving Repr, DecidableEq

/-- `NewEditSet` creates an empty EditSet. -/
def NewEditSet : editSet := ⟨[]⟩

/-- Modelled from the spec: insertion into an offset-sorted edit list.  The
new edit is placed before the first existing edit of equal or larger offset,
which keeps the list "sorted ascending by offset". -/
def insertSorted (e : edit) : List edit → List edit
  | [] => [e]
  | x :: xs => if e.Offset ≤ x.Offset then e :: x :: xs else x :: insertSorted e xs

/-- Update the association list of an EditSet at one file key. -/
def updateAssoc (f : String) (e : edit) : List (String × List edit) → List (String × List edit)
  | [] => [(f, [e])]
  | (g, l) :: rest => if g = f then (g, insertSorted e l) :: rest else (g, l) :: updateAssoc f e rest

/-- Modelled from the spec: `add(fileKey, {offset, length}, replacementText)`
inserts an edit for the given file, maintaining ascending offset order.  On a
plain EditSet it always succeeds (it "fails only on an already-rendered
Patch"). -/
def editSet.Add (es : editSet) (fname : String) (ol : OffsetLength) (repl : Str) : editSet :=
  ⟨updateAssoc fname ⟨ol.Offset, ol.Length, repl⟩ es.edits⟩

/-- The ordered edit list an EditSet holds for one file (empty if absent). -/
def editSet.lookup (es : editSet) (fname : String) : List edit :=
  match es.edits.find? (fun p => p.1 = fname) with
  | some p => p.2
  | none => []

/-- Modelled from the spec: applying an ordered edit list to text starting at
position `pos`, `applyTo` "applies edits in ascending offset order to
transform input into output" and fails with an overlap/range error when an
edit begins before the current position or reaches past the end of the
text. -/
def applyEdits (text : Str) : List edit → Nat → Option Str
  | [], pos => some (text.drop pos)
  | e :: rest, pos =>
    if e.Offset < pos then none
    else if e.Offset + e.Length > text.length then none
    else do
      let tail ← applyEdits text rest (e.Offset + e.Length)
      pure ((text.drop pos).take (e.Offset - pos) ++ e.replacement ++ tail)

/-- Modelled from the spec: `applyTo` for one file, on a whole string. -/
def editSet.ApplyToString (es : editSet) (fname : String) (s : Str) : Option Str :=
  applyEdits s (es.lookup fname) 0

/-- `abs` from `diff.go`: absolute value of an integer. -/
def abs (n : Int) : Int := if n < 0 then -n else n

/-- Read `v[i]`; `none` models the Go index-out-of-range panic. -/
def getV (v : List Int) (i : Int) : Option Int :=
  if 0 ≤ i ∧ i < (v.length : Int) then some (v.getD i.toNat 0) else none

/-- Write `v[i] = x`; `none` models the Go index-out-of-range panic. -/
def setV (v : List Int) (i : Int) (x : Int) : Option (List Int) :=
  if 0 ≤ i ∧ i < (v.length : Int) then some (v.set i.toNat x) else none

/-- `offsetOfString` from `diff.go`: byte offset of `ss[index]` in
`strings.Join(ss, "")`, as the sum of the lengths of the preceding strings.
For a negative index the Go loop body never runs and the result is 0; for
`index > len(ss)` the Go loop indexes past the end and panics (`none`). -/
def offsetOfString (index : Int) (ss : List Str) : Option Nat :=
  if index ≤ (ss.length : Int) then some ((ss.take index.toNat).map List.length).sum
  else none

/-- The greedy diagonal extension in `Diff`
(`for x < n && y < m && a[x] == b[y] { x, y = x+1, y+1 }`), returning the
final `x` (`y` is always `x - k`).  `fuel` bounds the iteration count; the
caller passes `a.length`, which the loop can never exceed.  A negative `y`
would make the Go code panic on `b[y]` (`none`). -/
def snake (a b : List Str) : Nat → Nat → Int → Option Nat
  | 0, x, _ => some x
  | fuel + 1, x, y =>
    if hx : x < a.length then
      if y < (b.length : Int) then
        if 0 ≤ y then
          if a.get ⟨x, hx⟩ = b.getD y.toNat [] then snake a b fuel (x + 1) (y + 1)
          else some x
        else none
      else some x
    else some x

/-- One iteration of the inner loop of `Diff` over diagonals
`k = -d, -d+2, …, d`; `count` is the number of diagonals left to process
(the caller passes `d + 1` for the full loop).  Returns `Sum.inl` with the
terminal `(k, x, y, v)` when `x >= n && y >= m` fires, and `Sum.inr v` when
the loop finishes without firing. -/
def kLoop (a b : List Str) (offset : Nat) (d : Nat) :
    Nat → Int → List Int → Option (Sum (Int × Nat × Int × List Int) (List Int))
  | 0, _, v => some (Sum.inr v)
  | count + 1, k, v =>
    let step : Option (Nat × Bool) :=
      if k = -(d : Int) then
        match getV v (offset + k + 1) with
        | none => none
        | some t => some ((abs t).toNat, false)
      else if k = (d : Int) then
        match getV v (offset + k - 1) with
        | none => none
        | some t => some ((abs t).toNat + 1, true)
      else
        match getV v (offset + k - 1), getV v (offset + k + 1) with
        | some tm, some tp =>
          if abs tm < abs tp then some ((abs tp).toNat, false)
          else some ((abs tm).toNat + 1, true)
        | _, _ => none
    match step with
    | none => none
    | some (x0, vert) =>
      match snake a b a.length x0 ((x0 : Int) - k) with
      | none => none
      | some x =>
        match setV v (offset + k) (if vert then -(x : Int) else (x : Int)) with
        | none => none
        | some v' =>
          if a.length ≤ x ∧ (b.length : Int) ≤ (x : Int) - k then
            some (Sum.inl (k, x, (x : Int) - k, v'))
          else kLoop a b offset d count (k + 2) v'

/-- The search state returned by the outer loop of `Diff` upon termination:
the iteration `d` at which the check fired, the diagonal `k` and point
`(x, y)` that fired, and the retained snapshots `vs` (the live `v` last). -/
structure FwdResult where
  d : Nat
  k : Int
  x : Nat
  y : Int
  vs : List (List Int)
deriving Repr, DecidableEq

/-- The outer loop `for d := 0; d <= max; d++` of `Diff`.  `fuel` is the
number of candidate values of `d` still allowed (the caller passes
`max + 1`); exhausting it models the `panic("Length of SES longer than max
(impossible)")` branch (`none`). -/
def dLoop (a b : List Str) (offset : Nat) :
    Nat → Nat → List Int → List (List Int) → Option FwdResult
  | 0, _, _, _ => none
  | fuel + 1, d, v, vs =>
    match kLoop a b offset d (d + 1) (-(d : Int)) v with
    | none => none
    | some (Sum.inl (k, x, y, v')) => some ⟨d, k, x, y, vs ++ [v']⟩
    | some (Sum.inr v') => dLoop a b offset fuel (d + 1) v' (vs ++ [v'])

/-- The backtrace loop of `constructEditSet` (`for len(vs) > 1`).  The
snapshot list is consumed from the end, so the model recurses over the
reversed list `vsRev` (`vsRev.head` is `vs[len(vs)-1]`).  Each step reads
the packed value `v_k`, decides Insert (`v_k > 0`) or Delete, emits one
edit via `result.Add`, and pops one snapshot.  `none` models the Go panics
on out-of-range `v`, `b[copyOffset:copyOffset+1]` or `a[deleteOffset]`. -/
def constructLoop (filename : String) (a b : List Str) (offset : Nat) :
    Int → List (List Int) → editSet → Option editSet
  | _, [], result => some result
  | _, [_], result => some result
  | k, v :: v2 :: rest, result => do
    let v_k ← getV v (offset + k)
    let x : Int := abs v_k
    let y : Int := x - k
    let k' : Int := if v_k > 0 then k + 1 else k - 1
    let next_v_k ← getV v2 (offset + k')
    let next_x : Int := abs next_v_k
    let next_y : Int := next_x - k'
    if v_k > 0 then
      let charsToCopy : Int := y - next_y - 1
      let insertOffset : Int := x - charsToCopy
      let off ← offsetOfString insertOffset a
      let copyOffset : Int := y - charsToCopy - 1
      if 0 ≤ copyOffset ∧ copyOffset < (b.length : Int) then
        let replaceWith := b.getD copyOffset.toNat []
        constructLoop filename a b offset k' (v2 :: rest)
          (result.Add filename ⟨off, 0⟩ replaceWith)
      else none
    else
      let charsToCopy : Int := x - next_x - 1
      let deleteOffset : Int := x - charsToCopy - 1
      if 0 ≤ deleteOffset ∧ deleteOffset < (a.length : Int) then
        let off ← offsetOfString deleteOffset a
        let deleted := a.getD deleteOffset.toNat []
        constructLoop filename a b offset k' (v2 :: rest)
          (result.Add filename ⟨off, deleted.length⟩ [])
      else none

/-- `constructEditSet` from `diff.go`: backtrace the snapshot matrix `vs`
into a sequence of single-unit deletions and insertions, starting on the
terminal diagonal `k = n - m`. -/
def constructEditSet (filename : String) (a b : List Str) (vs : List (List Int)) : Option editSet :=
  constructLoop filename a b (b.length + a.length) ((a.length : Int) - (b.length : Int))
    vs.reverse NewEditSet

/-- `Diff` from `diff.go`: the greedy Myers shortest-edit-script search.
Degenerate inputs are handled up front; otherwise the forward search runs
with `max = n + m` and the snapshots are backtraced into an EditSet.
`none` models a Go panic anywhere in the computation. -/
def Diff (filename : String) (a b : List Str) : Option editSet :=
  let n := a.length
  let m := b.length
  let max := m + n
  if n = 0 ∧ m = 0 then
    some NewEditSet
  else if n = 0 then
    some (NewEditSet.Add filename ⟨0, 0⟩ (strJoin b))
  else if m = 0 then
    some (NewEditSet.Add filename ⟨0, (strJoin a).length⟩ [])
  else
    let v0 := (List.replicate (2 * max) (0 : Int)).set (max + 1) 0
    match dLoop a b max (max + 1) 0 v0 [] with
    | none => none
    | some res => constructEditSet filename a b res.vs

/-- Independent reference longest-common-subsequence length (structural
recursion on both lists; `fuel` bounds the recursion depth, the callers
pass the sum of the lengths). -/
def lcsLen [DecidableEq α] : Nat → List α → List α → Nat
  | 0, _, _ => 0
  | _ + 1, [], _ => 0
  | _ + 1, _, [] => 0
  | fuel + 1, x :: xs, y :: ys =>
    if x = y then lcsLen fuel xs ys + 1
    else Nat.max (lcsLen fuel xs (y :: ys)) (lcsLen fuel (x :: xs) ys)

/-- Reference LCS of two sequences. -/
def lcs [DecidableEq α] (a b : List α) : Nat := lcsLen (a.length + b.length) a b

/-! ### The Patch / hunk machinery -/

/-- Number of leading/trailing context lines in a unified diff. -/
def num_ctx_lines : Nat := 3

/-- Outcome of a Go call that returns an `error` or panics. -/
inductive GoResult where
  | ok : GoResult
  | err : String → GoResult
  | panicked : String → GoResult
deriving Repr, DecidableEq

/-- A single hunk of a unified diff: its offset, 1-based start line and line
count in the original file, the affected bytes of the original file (the
`bytes.Buffer` field, which the source names `hunk`; renamed `hunkBuf` here
because in Lean the field name would shadow the type name), and the edits to
be applied to those bytes. -/
structure hunk where
  startOffset : Nat
  startLine : Nat
  numLines : Nat
  hunkBuf : Str
  edits : List edit
deriving Repr, DecidableEq

/-- `addLine`: append a single line of text to the hunk. -/
def hunk.addLine (h : hunk) (line : Str) : hunk :=
  { h with hunkBuf := h.hunkBuf ++ line, numLines := h.numLines + 1 }

/-- `addEdit`: append a single edit to the hunk, rebased to the hunk's
start offset. -/
def hunk.addEdit (h : hunk) (e : edit) : hunk :=
  { h with edits := h.edits ++ [e.RelativeToOffset h.startOffset] }

/-- A `Patch`: a rendered unified diff, a filename plus an ordered list of
hunks. -/
structure Patch where
  filename : String
  hunks : List hunk
deriving Repr, DecidableEq

/-- `Patch.Edits`: a single-key mapping from the patch's filename to the
concatenation of the per-hunk edit lists. -/
def Patch.Edits (p : Patch) : List (String × List edit) :=
  [(p.filename, (p.hunks.map hunk.edits).flatten)]

/-- `Patch.Add` always returns the read-only error; the receiver is returned
unchanged (the Go method body consists of the single `return`). -/
def Patch.Add (p : Patch) (_ : String) (_ : OffsetLength) (_ : Str) : Patch × GoResult :=
  (p, .err "Add cannot be called on Patch (read-only)")

/-- `Patch.ApplyTo` executes `panic("Not implemented")`. -/
def Patch.ApplyTo (_ : Patch) (_ : String) (_ : Str) : GoResult :=
  .panicked "Not implemented"

/-- `Patch.ApplyToFile` executes `panic("Not implemented")`. -/
def Patch.ApplyToFile (_ : Patch) (_ : String) : GoResult :=
  .panicked "Not implemented"

/-- `Patch.ApplyToString` executes `panic("Not implemented")`. -/
def Patch.ApplyToString (_ : Patch) (_ : String) (_ : Str) : GoResult :=
  .panicked "Not implemented"

/-- `Patch.add` (lowercase): append a hunk to the patch. -/
def Patch.addHunk (p : Patch) (h : hunk) : Patch :=
  { p with hunks := p.hunks ++ [h] }

/-- `strings.SplitAfter(s, "\n")`: split after every newline; the final
element (possibly empty) is the remainder after the last newline. -/
def splitAfter : Str → List Str
  | [] => [[]]
  | c :: rest =>
    if c = '\n' then [c] :: splitAfter rest
    else
      match splitAfter rest with
      | l :: ls => (c :: l) :: ls
      | [] => [[c]]

/-- Does a line end with a newline?  (`bufio.ReadString('\n')` reports
`io.EOF` exactly when it could not find the delimiter.) -/
def endsWithNewline (s : Str) : Bool := s.getLast? == some '\n'

/-- A `lineRdr`: reads lines one at a time, tracking the 0-based offset and
1-based line number of the line just read, and a sliding window of up to
`num_ctx_lines` previously read lines.  The wrapped `bufio.Reader` is
modelled by the queue `remaining` of the not-yet-read lines of the input
(as produced by `splitAfter`). -/
structure lineRdr where
  remaining : List Str
  line : Str
  lineOffset : Nat
  lineNum : Nat
  leadingCtxLines : List Str
deriving Repr, DecidableEq

/-- `newLineRdr`: a reader positioned before the first line of the input. -/
def newLineRdr (input : Str) : lineRdr :=
  ⟨splitAfter input, [], 0, 0, []⟩

/-- `readLine`: slide the context window, advance offset and line number,
and read the next line.  The returned Bool is true when the read reported
an error (`io.EOF`), i.e. when the line read is not newline-terminated. -/
def lineRdr.readLine (l : lineRdr) : lineRdr × Bool :=
  let ctx :=
    if l.lineNum > 0 then
      (if l.leadingCtxLines.length = num_ctx_lines then l.leadingCtxLines.tail
       else l.leadingCtxLines) ++ [l.line]
    else l.leadingCtxLines
  let off := l.lineOffset + l.line.length
  let num := l.lineNum + 1
  match l.remaining with
  | [] => (⟨[], [], off, num, ctx⟩, true)
  | ln :: rest => (⟨rest, ln, off, num, ctx⟩, !endsWithNewline ln)

/-- Offset of the first character following the line just read. -/
def lineRdr.offsetPastEnd (l : lineRdr) : Nat := l.lineOffset + l.line.length

/-- `editAddsToStart`: the edit (nil modelled as `none`) inserts characters
at the beginning of the current line without modifying any of them. -/
def lineRdr.editAddsToStart (l : lineRdr) : Option edit → Bool
  | none => false
  | some e => e.Offset == l.lineOffset && e.Length == 0

/-- `currentLineIsAffectedBy`: the edit touches the byte range of the line
just read. -/
def lineRdr.currentLineIsAffectedBy (l : lineRdr) : Option edit → Bool
  | none => false
  | some e => decide (e.Offset < l.offsetPastEnd) && decide (l.lineOffset ≤ e.OffsetPastEnd)

/-- `nextLineIsAffectedBy`: the edit reaches into the line following the
line just read. -/
def lineRdr.nextLineIsAffectedBy (l : lineRdr) : Option edit → Bool
  | none => false
  | some e => decide (l.offsetPastEnd ≤ e.OffsetPastEnd)

/-- `startHunk`: a new hunk at the current line, prepending up to
`num_ctx_lines` of leading context from the reader's window. -/
def startHunk (lr : lineRdr) : hunk :=
  let h : hunk :=
    { startOffset := lr.lineOffset, startLine := lr.lineNum, numLines := 1,
      hunkBuf := [], edits := [] }
  let h := lr.leadingCtxLines.foldl
    (fun h line =>
      { h with startOffset := h.startOffset - line.length,
               startLine := h.startLine - 1,
               numLines := h.numLines + 1,
               hunkBuf := h.hunkBuf ++ line })
    h
  { h with hunkBuf := h.hunkBuf ++ lr.line }

/-- The loop body of `addAllEditsOnCurLine`: consume from the edit iterator
(modelled as the list of not-yet-consumed edits) every edit affecting the
current line that does not extend into the next line, attaching each to the
hunk; `last` is the `lastEdit` accumulator. -/
def addAllGo (reader : lineRdr) : hunk → List edit → Option edit → hunk × List edit × Option edit
  | h, [], last => (h, [], last)
  | h, e :: rest, last =>
    if reader.currentLineIsAffectedBy (some e) then
      if reader.nextLineIsAffectedBy (some e) then (h, e :: rest, last)
      else addAllGo reader (h.addEdit e) rest (some e)
    else (h, e :: rest, last)

/-- `addAllEditsOnCurLine` from `diff.go` (`lastEdit` starts as the current
iterator edit). -/
def addAllEditsOnCurLine (h : hunk) (reader : lineRdr) (edits : List edit) :
    hunk × List edit × Option edit :=
  addAllGo reader h edits edits.head?

/-- The state of the `createPatch` loop; the open hunk (non-nil exactly in
the latter two states) and the trailing-context counter (meaningful only in
`EDIT_ADDED_TO_HUNK`) are carried in the state. -/
inductive CPState where
  | HUNK_NOT_STARTED : CPState
  | ADDING_TO_HUNK : hunk → CPState
  | EDIT_ADDED_TO_HUNK : hunk → Nat → CPState
deriving Repr, DecidableEq

/-- After attaching edits: if the last edit reaches into the next line keep
accumulating, otherwise an edit has been added and the trailing-context
counter starts at 1 for an insertion at line start, else at 0.  (This
decision is repeated verbatim in all three states of the Go loop.) -/
def stateAfterEdits (reader : lineRdr) (h : hunk) (last : Option edit) : CPState :=
  if reader.nextLineIsAffectedBy last then .ADDING_TO_HUNK h
  else .EDIT_ADDED_TO_HUNK h (if reader.editAddsToStart last then 1 else 0)

/-- The code after the read loop of `createPatch`: if a hunk is open, append
the final (partial) line if non-empty, attach remaining current-line edits
when still accumulating, and emit the hunk. -/
def createPatchFinish (reader : lineRdr) (st : CPState) (edits : List edit)
    (result : List hunk) : List hunk :=
  match st with
  | .HUNK_NOT_STARTED => result
  | .ADDING_TO_HUNK h =>
    let h := if reader.line ≠ [] then h.addLine reader.line else h
    let (h, _, _) := addAllGo reader h edits edits.head?
    result ++ [h]
  | .EDIT_ADDED_TO_HUNK h _ =>
    let h := if reader.line ≠ [] then h.addLine reader.line else h
    result ++ [h]

/-- The read loop of `createPatch` (three-state machine).  `fuel` bounds the
number of `readLine` calls; the caller passes one more than the number of
lines, which the loop cannot exceed since every non-EOF read consumes a
line. -/
def createPatchLoop : Nat → lineRdr → CPState → List edit → List hunk → List hunk
  | 0, reader, st, edits, result => createPatchFinish reader st edits result
  | fuel + 1, reader, st, edits, result =>
    let (rd, eof) := reader.readLine
    if eof then createPatchFinish rd st edits result
    else
      match st with
      | .HUNK_NOT_STARTED =>
        if rd.currentLineIsAffectedBy edits.head? then
          let h := startHunk rd
          let (h, edits', last) := addAllGo rd h edits edits.head?
          createPatchLoop fuel rd (stateAfterEdits rd h last) edits' result
        else
          createPatchLoop fuel rd .HUNK_NOT_STARTED edits result
      | .ADDING_TO_HUNK h =>
        let h := h.addLine rd.line
        let (h, edits', last) := addAllGo rd h edits edits.head?
        createPatchLoop fuel rd (stateAfterEdits rd h last) edits' result
      | .EDIT_ADDED_TO_HUNK h trailing =>
        let h := h.addLine rd.line
        if rd.currentLineIsAffectedBy edits.head? then
          let (h, edits', last) := addAllGo rd h edits edits.head?
          createPatchLoop fuel rd (stateAfterEdits rd h last) edits' result
        else
          let trailing := trailing + 1
          if trailing < 2 * num_ctx_lines then
            createPatchLoop fuel rd (.EDIT_ADDED_TO_HUNK h trailing) edits result
          else
            createPatchLoop fuel rd .HUNK_NOT_STARTED edits (result ++ [h])

/-- `createPatch` from `diff.go`: group an editSet's edits for one file into
context-bounded hunks by streaming the original text.  (The modelled input
is a pure string, so the Go I/O error result is always nil and is
omitted.) -/
def createPatch (es : editSet) (key : String) (input : Str) : Patch :=
  if es.edits.length = 0 then ⟨key, []⟩
  else
    let reader := newLineRdr input
    ⟨key, createPatchLoop (reader.remaining.length + 1) reader
      .HUNK_NOT_STARTED (es.lookup key) []⟩

/-- The while-loop of the rendering walk emitting all edits at the current
offset: `-line` for a deletion (latching `deleted`), `+replacement` for an
insertion; returns the rendered text, the `deleted` flag and the remaining
edits. -/
def renderEditsAt (line : Str) : List edit → Nat → Bool → Str × Bool × List edit
  | [], _, deleted => ([], deleted, [])
  | e :: rest, offset, deleted =>
    if e.Offset = offset then
      if e.Length > 0 then
        let (out, del, rem) := renderEditsAt line rest offset true
        (('-' :: line) ++ out, del, rem)
      else
        let (out, del, rem) := renderEditsAt line rest offset deleted
        (('+' :: e.replacement) ++ out, del, rem)
    else ([], deleted, e :: rest)

/-- The per-line rendering walk of `writeUnifiedDiffHunk`: an untouched line
is emitted with a space prefix; a touched line is emitted after all edits at
its offset, itself prefixed `-` if deleted or a space otherwise. -/
def renderLines : List Str → List edit → Nat → Str
  | [], _, _ => []
  | line :: rest, sesEdits, offset =>
    let untouched :=
      match sesEdits.head? with
      | none => true
      | some e => offset < e.Offset
    if untouched then
      (' ' :: line) ++ renderLines rest sesEdits (offset + line.length)
    else
      let (out, deleted, rem) := renderEditsAt line sesEdits offset false
      out ++ (if deleted then [] else ' ' :: line) ++
        renderLines rest rem (offset + line.length)

/-- `writeUnifiedDiffHunk` from `diff.go`: materialize the hunk's new text
by applying its (rebased) edits, emit the `@@` header with the
`SplitAfter` line counts, re-diff original against new hunk lines, and walk
the original lines emitting context/`-`/`+` lines.  Returns the line-count
adjustment for subsequent hunks and the rendered text; `none` models an
apply error or a panic in the inner `Diff`. -/
def writeUnifiedDiffHunk (h : hunk) (outputLineOffset : Int) : Option (Int × Str) := do
  let es : editSet := ⟨[("", h.edits)]⟩
  let newText ← es.ApplyToString "" h.hunkBuf
  let origLines := splitAfter h.hunkBuf
  let newLines := splitAfter newText
  let header :=
    "@@ -".toList ++ (Nat.repr h.startLine).toList ++ [','] ++
    (Nat.repr origLines.length).toList ++ " +".toList ++
    (Int.repr ((h.startLine : Int) + outputLineOffset)).toList ++ [','] ++
    (Nat.repr newLines.length).toList ++ " @@\n".toList
  let ses ← Diff "" origLines newLines
  pure (((newLines.length : Int) - (origLines.length : Int)),
    header ++ renderLines origLines (ses.lookup "") 0)

/-- The hunk-writing fold of `Patch.Write`, threading the cumulative line
offset. -/
def writeHunks : List hunk → Int → Option Str
  | [], _ => some []
  | h :: rest, lineOffset => do
    let (adjust, text) ← writeUnifiedDiffHunk h lineOffset
    let tail ← writeHunks rest (lineOffset + adjust)
    pure (text ++ tail)

/-- `Patch.Write`: the `---`/`+++` file header followed by each hunk in
unified diff format. -/
def Patch.Write (p : Patch) : Option Str := do
  let body ← writeHunks p.hunks 0
  pure (("--- ".toList ++ p.filename.toList ++ "\n+++ ".toList ++
    p.filename.toList ++ ['\n']) ++ body)

/-- Helper: is a `GoResult` a returned (non-panic) error? -/
def GoResult.isErr : GoResult → Bool
  | .err _ => true
  | _ => false

/-- An offset that is the start of a unit of `a` in `join(a)` (the index-`i`
boundary for `i < |a|`), or the offset one past the last unit (`i = |a|`). -/
def unitBoundary (a : List Str) (off : Nat) : Prop :=
  ∃ i, i ≤ a.length ∧ off = ((a.take i).map List.length).sum

/-- The edit is an insertion: length 0, replacement exactly one whole unit
of `b`, placed at a unit boundary of `a`. -/
def isUnitInsert (a b : List Str) (e : edit) : Prop :=
  e.Length = 0 ∧ e.replacement ∈ b ∧ unitBoundary a e.Offset

/-- The edit is a deletion of exactly one whole unit of `a`: empty
replacement, offset the start of unit `i`, length the size of unit `i`. -/
def isUnitDelete (a : List Str) (e : edit) : Prop :=
  e.replacement = [] ∧
  ∃ i, i < a.length ∧ e.Length = (a.getD i []).length ∧
    e.Offset = ((a.take i).map List.length).sum

/-- The open hunk carried by a `createPatch` loop state, if any. -/
def stHunk : CPState → Option hunk
  | .HUNK_NOT_STARTED => none
  | .ADDING_TO_HUNK h => some h
  | .EDIT_ADDED_TO_HUNK h _ => some h

/-- A well-formed text line: nonempty, terminated by a newline, with no
interior newline. -/
def goodLine (l : Str) : Prop :=
  l ≠ [] ∧ l.getLast? = some '\n' ∧ ∀ c ∈ l.dropLast, c ≠ '\n'

/-- Byte offset of the start of line `t` in the concatenation of `lines`. -/
def offsetAt (lines : List Str) (t : Nat) : Nat :=
  ((lines.take t).map List.length).sum

/-- The `lineRdr` state over `lines` after `r` calls to `readLine`
(`r = 0` is the state produced by `newLineRdr`; for `r ≥ 1` the current
line is `lines[r-1]`; `r = lines.length + 1` is the state after the final
EOF read). -/
def mkRdr (lines : List Str) (r : Nat) : lineRdr :=
  { remaining := (lines ++ [[]]).drop r,
    line := if r = 0 then [] else lines.getD (r - 1) [],
    lineOffset := offsetAt lines (r - 1),
    lineNum := r,
    leadingCtxLines := (lines.take (r - 1)).drop (r - 1 - num_ctx_lines) }

/-! #### Specification-side notions for the Myers search analysis -/

/-- An edit script between two sequences, counting the non-copy operations:
`EditScript as bs d` holds when `as` can be turned into `bs` by `d`
single-unit deletions and insertions (plus arbitrary copies). -/
inductive EditScript : List Str → List Str → Nat → Prop where
  | nil : EditScript [] [] 0
  | del (x : Str) {as bs : List Str} {d : Nat} :
      EditScript as bs d → EditScript (x :: as) bs (d + 1)
  | ins (y : Str) {as bs : List Str} {d : Nat} :
      EditScript as bs d → EditScript as (y :: bs) (d + 1)
  | copy (x : Str) {as bs : List Str} {d : Nat} :
      EditScript as bs d → EditScript (x :: as) (x :: bs) d

/-- Points reachable in the edit graph extended beyond the grid: from
`(0, 0)`, with `d` non-diagonal moves; a diagonal (match) move is only
allowed inside the grid.  This is exactly what the frontier values computed
by `Diff` denote (the `+1` overshoot steps are horizontal moves taken past
the right edge of the grid). -/
inductive ExtReach (a b : List Str) : Nat → Nat → Nat → Prop where
  | base : ExtReach a b 0 0 0
  | del {x y d : Nat} : ExtReach a b x y d → ExtReach a b (x + 1) y (d + 1)
  | ins {x y d : Nat} : ExtReach a b x y d → ExtReach a b x (y + 1) (d + 1)
  | diag {x y d : Nat} : ExtReach a b x y d → x < a.length → y < b.length →
      a.getD x [] = b.getD y [] → ExtReach a b (x + 1) (y + 1) d

/-- Points reachable from `(0, 0)` inside the grid with exactly `d`
non-diagonal moves. -/
inductive GridReach (a b : List Str) : Nat → Nat → Nat → Prop where
  | base : GridReach a b 0 0 0
  | del {x y d : Nat} : GridReach a b x y d → x < a.length →
      GridReach a b (x + 1) y (d + 1)
  | ins {x y d : Nat} : GridReach a b x y d → y < b.length →
      GridReach a b x (y + 1) (d + 1)
  | diag {x y d : Nat} : GridReach a b x y d → x < a.length → y < b.length →
      a.getD x [] = b.getD y [] → GridReach a b (x + 1) (y + 1) d

/-- Paths from `(x, y)` to the corner `(|a|, |b|)` inside the grid with
exactly `d` non-diagonal moves. -/
inductive TailReach (a b : List Str) : Nat → Nat → Nat → Prop where
  | base : TailReach a b a.length b.length 0
  | del {x y d : Nat} : x < a.length → TailReach a b (x + 1) y d →
      TailReach a b x y (d + 1)
  | ins {x y d : Nat} : y < b.length → TailReach a b x (y + 1) d →
      TailReach a b x y (d + 1)
  | diag {x y d : Nat} : x < a.length → y < b.length →
      a.getD x [] = b.getD y [] → TailReach a b (x + 1) (y + 1) d →
      TailReach a b x y d

/-- A maximal-free run of matches (a "snake") from `(p, q)` covering
`len` diagonal steps. -/
def SnakeRun (a b : List Str) (p q len : Nat) : Prop :=
  ∀ t, t < len → p + t < a.length ∧ q + t < b.length ∧
    a.getD (p + t) [] = b.getD (q + t) []

/-- What the frontier slot for diagonal `kk` holds after iteration `d` of
the forward search: a packed value whose magnitude `x` is a farthest point
on that diagonal — realizable in the extended grid with `d` non-diagonal
moves, and dominating every in-grid point reachable with exactly `d`
non-diagonal moves. -/
def SlotSpec (a b : List Str) (offset d : Nat) (v : List Int) (kk : Int) : Prop :=
  ∃ (s : Int) (x : Nat),
    getV v ((offset : Int) + kk) = some s ∧ abs s = (x : Int) ∧ kk ≤ (x : Int) ∧
    ExtReach a b x (((x : Int) - kk).toNat) d ∧
    ∀ xq yq : Nat, GridReach a b xq yq d → (xq : Int) - (yq : Int) = kk → xq ≤ x

end Godoctor


/-! ### Supporting lemmas about the modelled EditSet -/

namespace Godoctor

theorem mem_insertSorted {x e : edit} : ∀ {l : List edit},
    x ∈ insertSorted e l ↔ x = e ∨ x ∈ l := by
  intro l
  induction l with
  | nil => simp [insertSorted]
  | cons y ys ih =>
    by_cases h : e.Offset ≤ y.Offset
    · simp [insertSorted, h]
    · simp only [insertSorted, if_neg h, List.mem_cons, ih]
      tauto

theorem pairwise_insertSorted (e : edit) : ∀ {l : List edit},
    l.Pairwise (fun e1 e2 => e1.Offset ≤ e2.Offset) →
    (insertSorted e l).Pairwise (fun e1 e2 => e1.Offset ≤ e2.Offset) := by
  intro l
  induction l with
  | nil => simp [insertSorted]
  | cons y ys ih =>
    intro hp
    rcases List.pairwise_cons.mp hp with ⟨hy, hys⟩
    by_cases h : e.Offset ≤ y.Offset
    · simp only [insertSorted, if_pos h]
      refine List.pairwise_cons.mpr ⟨?_, hp⟩
      intro z hz
      rcases List.mem_cons.mp hz with rfl | hz'
      · exact h
      · exact le_trans h (hy z hz')
    · simp only [insertSorted, if_neg h]
      refine List.pairwise_cons.mpr ⟨?_, ih hys⟩
      intro z hz
      rcases mem_insertSorted.mp hz with rfl | hz'
      · exact Nat.le_of_not_le h
      · exact hy z hz'

theorem find?_updateAssoc (f : String) (e : edit) : ∀ l : List (String × List edit),
    (updateAssoc f e l).find? (fun p => p.1 = f) =
      some (f, insertSorted e (match l.find? (fun p => p.1 = f) with
        | some p => p.2
        | none => [])) := by
  intro l
  induction l with
  | nil => simp [updateAssoc, List.find?, insertSorted]
  | cons hd rest ih =>
    obtain ⟨g, lst⟩ := hd
    by_cases hg : g = f
    · subst hg
      simp [updateAssoc, List.find?]
    · simp only [updateAssoc, if_neg hg]
      rw [List.find?_cons_of_neg, List.find?_cons_of_neg, ih]
      · simp [hg]
      · simp [hg]

theorem lookup_Add (es : editSet) (f : String) (ol : OffsetLength) (r : Str) :
    (es.Add f ol r).lookup f = insertSorted ⟨ol.Offset, ol.Length, r⟩ (es.lookup f) := by
  unfold editSet.Add editSet.lookup
  rw [find?_updateAssoc]

/-- Every edit emitted by the backtrace loop is a one-unit insertion or a
one-unit deletion at a unit boundary, and the accumulated edit list stays
sorted by offset: each iteration adds one edit whose shape is forced by the
bounds checks in `constructLoop`, through the sorted insertion of `Add`. -/
theorem constructLoop_shape (f : String) (a b : List Str) (offset : Nat) :
    ∀ (vsRev : List (List Int)) (k : Int) (acc es : editSet),
      constructLoop f a b offset k vsRev acc = some es →
      (∀ e ∈ acc.lookup f, isUnitInsert a b e ∨ isUnitDelete a e) →
      (acc.lookup f).Pairwise (fun e1 e2 => e1.Offset ≤ e2.Offset) →
      (∀ e ∈ es.lookup f, isUnitInsert a b e ∨ isUnitDelete a e) ∧
        (es.lookup f).Pairwise (fun e1 e2 => e1.Offset ≤ e2.Offset) := by
  intro vsRev
  induction vsRev with
  | nil =>
    intro k acc es h hshape hpair
    simp only [constructLoop, Option.some.injEq] at h
    exact h ▸ ⟨hshape, hpair⟩
  | cons v rest ih =>
    cases rest with
    | nil =>
      intro k acc es h hshape hpair
      simp only [constructLoop, Option.some.injEq] at h
      exact h ▸ ⟨hshape, hpair⟩
    | cons v2 rest2 =>
      intro k acc es h hshape hpair
      rw [constructLoop] at h
      cases hvk : getV v (offset + k) with
      | none => rw [hvk] at h; simp at h
      | some v_k =>
        rw [hvk] at h
        simp only [Option.bind_eq_bind, Option.some_bind] at h
        cases hnvk : getV v2 (offset + (if v_k > 0 then k + 1 else k - 1)) with
        | none => rw [hnvk] at h; simp at h
        | some next_v_k =>
          rw [hnvk] at h
          simp only [Option.some_bind] at h
          by_cases hpos : v_k > 0
          · simp only [if_pos hpos] at h
            cases hoff : offsetOfString (abs v_k - (abs v_k - k - (abs next_v_k -
                (k + 1)) - 1)) a with
            | none => rw [hoff] at h; simp at h
            | some off =>
              rw [hoff] at h
              simp only [Option.some_bind] at h
              by_cases hcb : 0 ≤ abs v_k - k - (abs v_k - k - (abs next_v_k - (k + 1)) - 1) - 1 ∧
                  abs v_k - k - (abs v_k - k - (abs next_v_k - (k + 1)) - 1) - 1 < (b.length : Int)
              · rw [if_pos hcb] at h
                refine ih _ _ _ h ?_ ?_
                · intro e he
                  rw [lookup_Add] at he
                  rcases mem_insertSorted.mp he with rfl | he'
                  · left
                    refine ⟨rfl, ?_, ?_⟩
                    · have hlt : (abs v_k - k - (abs v_k - k - (abs next_v_k - (k + 1)) - 1) -
                          1).toNat < b.length := by
                        omega
                      rw [List.getD_eq_getElem _ _ hlt]
                      exact List.getElem_mem hlt
                    · unfold offsetOfString at hoff
                      by_cases hio : abs v_k - (abs v_k - k - (abs next_v_k - (k + 1)) - 1) ≤
                          (a.length : Int)
                      · rw [if_pos hio] at hoff
                        refine ⟨_, ?_, (Option.some.injEq _ _).mp hoff |>.symm⟩
                        omega
                      · rw [if_neg hio] at hoff; simp at hoff
                  · exact hshape e he'
                · rw [lookup_Add]
                  exact pairwise_insertSorted _ hpair
              · rw [if_neg hcb] at h; simp at h
          · simp only [if_neg hpos] at h
            cases hoff : offsetOfString (abs v_k - (abs v_k - abs next_v_k - 1) - 1) a with
            | none => rw [hoff] at h; simp at h
            | some off =>
              rw [hoff] at h
              simp only [Option.some_bind] at h
              by_cases hdb : 0 ≤ abs v_k - (abs v_k - abs next_v_k - 1) - 1 ∧
                  abs v_k - (abs v_k - abs next_v_k - 1) - 1 < (a.length : Int)
              · rw [if_pos hdb] at h
                refine ih _ _ _ h ?_ ?_
                · intro e he
                  rw [lookup_Add] at he
                  rcases mem_insertSorted.mp he with rfl | he'
                  · right
                    refine ⟨rfl, (abs v_k - (abs v_k - abs next_v_k - 1) - 1).toNat, ?_, rfl, ?_⟩
                    · omega
                    · unfold offsetOfString at hoff
                      rw [if_pos (by omega)] at hoff
                      exact ((Option.some.injEq _ _).mp hoff).symm
                  · exact hshape e he'
                · rw [lookup_Add]
                  exact pairwise_insertSorted _ hpair
              · rw [if_neg hdb] at h; simp at h

/-! #### Provenance of hunk edits through the createPatch state machine -/

theorem addAllGo_spec (reader : lineRdr) (full : List edit) : ∀ (edits : List edit)
    (h : hunk) (last : Option edit),
    edits ⊆ full →
    (∀ e' ∈ h.edits, ∃ e ∈ full, e' = e.RelativeToOffset h.startOffset) →
    (addAllGo reader h edits last).1.startOffset = h.startOffset ∧
    (∀ e' ∈ (addAllGo reader h edits last).1.edits,
      ∃ e ∈ full, e' = e.RelativeToOffset (addAllGo reader h edits last).1.startOffset) ∧
    (addAllGo reader h edits last).2.1 ⊆ full := by
  intro edits
  induction edits with
  | nil =>
    intro h last hsub hprov
    exact ⟨rfl, hprov, hsub⟩
  | cons e rest ih =>
    intro h last hsub hprov
    by_cases hcur : reader.currentLineIsAffectedBy (some e) = true
    · by_cases hnext : reader.nextLineIsAffectedBy (some e) = true
      · rw [addAllGo, if_pos hcur, if_pos hnext]
        exact ⟨rfl, hprov, hsub⟩
      · rw [addAllGo, if_pos hcur, if_neg hnext]
        have hsub' : rest ⊆ full := fun x hx => hsub (List.mem_cons_of_mem _ hx)
        have hprov' : ∀ e' ∈ (h.addEdit e).edits,
            ∃ e0 ∈ full, e' = e0.RelativeToOffset (h.addEdit e).startOffset := by
          intro e' he'
          simp only [hunk.addEdit] at he' ⊢
          rcases List.mem_append.mp he' with h1 | h2
          · exact hprov e' h1
          · rcases List.mem_singleton.mp h2 with rfl
            exact ⟨e, hsub (List.mem_cons_self e rest), rfl⟩
        exact ih (h.addEdit e) (some e) hsub' hprov'
    · rw [addAllGo, if_neg hcur]
      exact ⟨rfl, hprov, hsub⟩

theorem foldl_hunk_edits (l : List Str) : ∀ h : hunk,
    (l.foldl (fun h line =>
      { h with startOffset := h.startOffset - line.length,
               startLine := h.startLine - 1,
               numLines := h.numLines + 1,
               hunkBuf := h.hunkBuf ++ line }) h).edits = h.edits := by
  induction l with
  | nil => intro h; rfl
  | cons x xs ih => intro h; rw [List.foldl_cons, ih]

theorem startHunk_edits (lr : lineRdr) : (startHunk lr).edits = [] := by
  unfold startHunk
  simp only [foldl_hunk_edits]

theorem stHunk_stateAfterEdits (rd : lineRdr) (h : hunk) (last : Option edit) :
    stHunk (stateAfterEdits rd h last) = some h := by
  unfold stateAfterEdits
  split <;> rfl

theorem createPatchFinish_prov (full : List edit) (reader : lineRdr) (st : CPState)
    (edits : List edit) (result : List hunk)
    (hsub : edits ⊆ full)
    (hres : ∀ h ∈ result, ∀ e' ∈ h.edits, ∃ e ∈ full, e' = e.RelativeToOffset h.startOffset)
    (hst : ∀ h0, stHunk st = some h0 →
      ∀ e' ∈ h0.edits, ∃ e ∈ full, e' = e.RelativeToOffset h0.startOffset) :
    ∀ h ∈ createPatchFinish reader st edits result,
      ∀ e' ∈ h.edits, ∃ e ∈ full, e' = e.RelativeToOffset h.startOffset := by
  cases st with
  | HUNK_NOT_STARTED => exact hres
  | ADDING_TO_HUNK h0 =>
    intro h hh
    simp only [createPatchFinish] at hh
    rcases List.mem_append.mp hh with h1 | h2
    · exact hres h h1
    · rcases List.mem_singleton.mp h2 with rfl
      have base := hst h0 rfl
      have hprov1 : ∀ e' ∈ (if reader.line ≠ [] then h0.addLine reader.line else h0).edits,
          ∃ e ∈ full, e' = e.RelativeToOffset
            (if reader.line ≠ [] then h0.addLine reader.line else h0).startOffset := by
        split <;> simpa [hunk.addLine] using base
      exact (addAllGo_spec reader full edits _ edits.head? hsub hprov1).2.1
  | EDIT_ADDED_TO_HUNK h0 trailing =>
    intro h hh
    simp only [createPatchFinish] at hh
    rcases List.mem_append.mp hh with h1 | h2
    · exact hres h h1
    · rcases List.mem_singleton.mp h2 with rfl
      have base := hst h0 rfl
      split <;> simpa [hunk.addLine] using base

theorem createPatchLoop_prov (full : List edit) : ∀ (fuel : Nat) (reader : lineRdr)
    (st : CPState) (edits : List edit) (result : List hunk),
    edits ⊆ full →
    (∀ h ∈ result, ∀ e' ∈ h.edits, ∃ e ∈ full, e' = e.RelativeToOffset h.startOffset) →
    (∀ h0, stHunk st = some h0 →
      ∀ e' ∈ h0.edits, ∃ e ∈ full, e' = e.RelativeToOffset h0.startOffset) →
    ∀ h ∈ createPatchLoop fuel reader st edits result,
      ∀ e' ∈ h.edits, ∃ e ∈ full, e' = e.RelativeToOffset h.startOffset := by
  intro fuel
  induction fuel with
  | zero =>
    intro reader st edits result hsub hres hst
    exact createPatchFinish_prov full reader st edits result hsub hres hst
  | succ fuel ih =>
    intro reader st edits result hsub hres hst
    rw [createPatchLoop]
    cases heof : reader.readLine.2 with
    | true =>
      simp only [heof, if_true]
      exact createPatchFinish_prov full reader.readLine.1 st edits result hsub hres hst
    | false =>
      simp only [heof, Bool.false_eq_true, if_false]
      cases st with
      | HUNK_NOT_STARTED =>
        by_cases hcur : (reader.readLine.1).currentLineIsAffectedBy edits.head? = true
        · simp only [hcur, if_true]
          have hsh : ∀ e' ∈ (startHunk reader.readLine.1).edits,
              ∃ e ∈ full, e' = e.RelativeToOffset (startHunk reader.readLine.1).startOffset := by
            rw [startHunk_edits]; intro e' he'; cases he'
          rcases addAllGo_spec reader.readLine.1 full edits (startHunk reader.readLine.1)
            edits.head? hsub hsh with ⟨_, hprov, hsub2⟩
          refine ih reader.readLine.1 _ _ result hsub2 hres ?_
          intro h0 hh0
          rw [stHunk_stateAfterEdits] at hh0
          cases hh0
          exact hprov
        · simp only [Bool.not_eq_true] at hcur
          simp only [hcur, Bool.false_eq_true, if_false]
          exact ih reader.readLine.1 _ edits result hsub hres (by intro h0 hh0; cases hh0)
      | ADDING_TO_HUNK h0 =>
        have base := hst h0 rfl
        have hal : ∀ e' ∈ (h0.addLine reader.readLine.1.line).edits,
            ∃ e ∈ full, e' = e.RelativeToOffset
              (h0.addLine reader.readLine.1.line).startOffset := by
          simpa [hunk.addLine] using base
        rcases addAllGo_spec reader.readLine.1 full edits (h0.addLine reader.readLine.1.line)
          edits.head? hsub hal with ⟨_, hprov, hsub2⟩
        refine ih reader.readLine.1 _ _ result hsub2 hres ?_
        intro h1 hh1
        rw [stHunk_stateAfterEdits] at hh1
        cases hh1
        exact hprov
      | EDIT_ADDED_TO_HUNK h0 trailing =>
        have base := hst h0 rfl
        have hal : ∀ e' ∈ (h0.addLine reader.readLine.1.line).edits,
            ∃ e ∈ full, e' = e.RelativeToOffset
              (h0.addLine reader.readLine.1.line).startOffset := by
          simpa [hunk.addLine] using base
        by_cases hcur : (reader.readLine.1).currentLineIsAffectedBy edits.head? = true
        · simp only [hcur, if_true]
          rcases addAllGo_spec reader.readLine.1 full edits (h0.addLine reader.readLine.1.line)
            edits.head? hsub hal with ⟨_, hprov, hsub2⟩
          refine ih reader.readLine.1 _ _ result hsub2 hres ?_
          intro h1 hh1
          rw [stHunk_stateAfterEdits] at hh1
          cases hh1
          exact hprov
        · simp only [Bool.not_eq_true] at hcur
          simp only [hcur, Bool.false_eq_true, if_false]
          by_cases htr : trailing + 1 < 2 * num_ctx_lines
          · simp only [htr, if_true]
            refine ih reader.readLine.1 _ edits result hsub hres ?_
            intro h1 hh1
            cases hh1
            exact hal
          · simp only [htr, if_false]
            refine ih reader.readLine.1 _ edits _ hsub ?_ (by intro h1 hh1; cases hh1)
            intro h hh
            rcases List.mem_append.mp hh with h1 | h2
            · exact hres h h1
            · rcases List.mem_singleton.mp h2 with rfl
              exact hal

/-! #### Reader-state lemmas for the hunk-threshold analysis -/

theorem splitAfter_append_line : ∀ (l : Str), goodLine l → ∀ s : Str,
    splitAfter (l ++ s) = l :: splitAfter s := by
  intro l
  induction l with
  | nil => intro hg; exact absurd rfl hg.1
  | cons c rest ih =>
    intro hg s
    cases rest with
    | nil =>
      have hc : c = '\n' := by
        have := hg.2.1
        simpa [List.getLast?] using this
      subst hc
      simp [splitAfter]
    | cons d rest2 =>
      have hc : c ≠ '\n' := by
        have := hg.2.2 c
        simp [List.dropLast] at this
        exact this
      have hg' : goodLine (d :: rest2) := by
        refine ⟨by simp, ?_, ?_⟩
        · have := hg.2.1
          simpa [List.getLast?_cons_cons] using this
        · intro x hx
          exact hg.2.2 x (by simp [List.dropLast] at hx ⊢; exact Or.inr hx)
      rw [List.cons_append, splitAfter, if_neg hc, ih hg' s]

theorem splitAfter_strJoin : ∀ (lines : List Str), (∀ l ∈ lines, goodLine l) →
    splitAfter (strJoin lines) = lines ++ [[]] := by
  intro lines
  induction lines with
  | nil => intro _; rfl
  | cons l ls ih =>
    intro hg
    have : strJoin (l :: ls) = l ++ strJoin ls := by simp [strJoin]
    rw [this, splitAfter_append_line l (hg l (List.mem_cons_self l ls)) _,
      ih (fun x hx => hg x (List.mem_cons_of_mem l hx))]
    rfl

theorem offsetAt_succ (lines : List Str) (t : Nat) (ht : t < lines.length) :
    offsetAt lines (t + 1) = offsetAt lines t + (lines.getD t []).length := by
  unfold offsetAt
  rw [List.take_succ]
  have : lines[t]?.toList = [lines.getD t []] := by
    rw [List.getElem?_eq_getElem ht, List.getD_eq_getElem _ _ ht]
    rfl
  rw [this, List.map_append, List.sum_append]
  simp

theorem sum_take_mono : ∀ (L : List Nat) {s t : Nat}, s ≤ t →
    (L.take s).sum ≤ (L.take t).sum := by
  intro L
  induction L with
  | nil => intro s t _; simp
  | cons x xs ih =>
    intro s t h
    cases s with
    | zero => simp
    | succ s' =>
      cases t with
      | zero => omega
      | succ t' =>
        simp only [List.take_succ_cons, List.sum_cons]
        exact Nat.add_le_add_left (ih (Nat.succ_le_succ_iff.mp h)) x

theorem offsetAt_mono (lines : List Str) {s t : Nat} (h : s ≤ t) :
    offsetAt lines s ≤ offsetAt lines t := by
  unfold offsetAt
  rw [List.map_take, List.map_take]
  exact sum_take_mono _ h

theorem endsWithNewline_of_good {l : Str} (hg : goodLine l) : endsWithNewline l = true := by
  unfold endsWithNewline
  rw [hg.2.1]
  rfl

theorem getD_mem_of_lt (lines : List Str) (t : Nat) (ht : t < lines.length) :
    lines.getD t [] ∈ lines := by
  rw [List.getD_eq_getElem _ _ ht]
  exact List.getElem_mem ht

theorem readLine_mkRdr (lines : List Str) (hg : ∀ l ∈ lines, goodLine l)
    (r : Nat) (hr : r ≤ lines.length) :
    (mkRdr lines r).readLine = (mkRdr lines (r + 1), decide (r = lines.length)) := by
  have hoff : offsetAt lines (r - 1) +
      (if r = 0 then ([] : Str) else lines.getD (r - 1) []).length =
      offsetAt lines (r + 1 - 1) := by
    rcases Nat.eq_zero_or_pos r with rfl | hr0
    · simp [offsetAt]
    · have hr1 : r - 1 < lines.length := by omega
      rw [if_neg (by omega : ¬ r = 0),
        show r + 1 - 1 = (r - 1) + 1 by omega, offsetAt_succ lines (r - 1) hr1]
  have hctx : (if r > 0 then
        (if ((lines.take (r - 1)).drop (r - 1 - num_ctx_lines)).length = num_ctx_lines then
          ((lines.take (r - 1)).drop (r - 1 - num_ctx_lines)).tail
         else (lines.take (r - 1)).drop (r - 1 - num_ctx_lines)) ++
          [if r = 0 then ([] : Str) else lines.getD (r - 1) []]
      else (lines.take (r - 1)).drop (r - 1 - num_ctx_lines)) =
      (lines.take (r + 1 - 1)).drop (r + 1 - 1 - num_ctx_lines) := by
    rcases Nat.eq_zero_or_pos r with rfl | hr0
    · simp
    · have hr1 : r - 1 < lines.length := by omega
      have hlen : ((lines.take (r - 1)).drop (r - 1 - num_ctx_lines)).length =
          (r - 1) - (r - 1 - num_ctx_lines) := by
        rw [List.length_drop, List.length_take]
        omega
      have htake : lines.take r = lines.take (r - 1) ++ [lines.getD (r - 1) []] := by
        conv => lhs; rw [show r = (r - 1) + 1 by omega]
        rw [List.take_succ, List.getElem?_eq_getElem hr1, List.getD_eq_getElem _ _ hr1]
        rfl
      have huni : (if ((lines.take (r - 1)).drop (r - 1 - num_ctx_lines)).length =
            num_ctx_lines then
          ((lines.take (r - 1)).drop (r - 1 - num_ctx_lines)).tail
         else (lines.take (r - 1)).drop (r - 1 - num_ctx_lines)) =
          (lines.take (r - 1)).drop (r - num_ctx_lines) := by
        by_cases hfull : ((lines.take (r - 1)).drop (r - 1 - num_ctx_lines)).length =
            num_ctx_lines
        · rw [if_pos hfull, List.tail_drop]
          rw [hlen] at hfull
          have : r - 1 - num_ctx_lines + 1 = r - num_ctx_lines := by
            unfold num_ctx_lines at hfull ⊢
            omega
          rw [this]
        · rw [if_neg hfull]
          rw [hlen] at hfull
          have h2 : r - 1 - num_ctx_lines = 0 ∧ r - num_ctx_lines = 0 := by
            unfold num_ctx_lines at hfull ⊢
            omega
          rw [h2.1, h2.2]
      rw [if_pos hr0, huni, if_neg (by omega : ¬ r = 0),
        show (lines.take (r - 1)).drop (r - num_ctx_lines) ++ [lines.getD (r - 1) []] =
          ((lines.take (r - 1)) ++ [lines.getD (r - 1) []]).drop (r - num_ctx_lines) from
          (List.drop_append_of_le_length (by
            rw [List.length_take]
            unfold num_ctx_lines
            omega)).symm,
        ← htake]
      simp only [Nat.add_sub_cancel]
  rcases Nat.lt_or_ge r lines.length with hlt | hge
  · have hrem : (lines ++ [[]]).drop r = lines.getD r [] :: (lines ++ [[]]).drop (r + 1) := by
      rw [List.drop_append_of_le_length (le_of_lt hlt),
        List.drop_append_of_le_length hlt,
        List.drop_eq_getElem_cons hlt, List.getD_eq_getElem _ _ hlt, List.cons_append]
    have heof : endsWithNewline (lines.getD r []) = true :=
      endsWithNewline_of_good (hg _ (getD_mem_of_lt lines r hlt))
    simp only [lineRdr.readLine, mkRdr, hrem, heof, Bool.not_true]
    rw [Prod.mk.injEq]
    refine ⟨?_, ?_⟩
    · rw [lineRdr.mk.injEq]
      refine ⟨rfl, ?_, hoff, rfl, hctx⟩
      rw [if_neg (by omega : ¬ r + 1 = 0)]
      simp only [Nat.add_sub_cancel]
    · rw [decide_eq_false (by omega : ¬ r = lines.length)]
  · have hre : r = lines.length := le_antisymm hr hge
    subst hre
    have hrem : (lines ++ [[]]).drop lines.length = ([] : Str) :: [] := by
      rw [List.drop_append_of_le_length (le_refl _), List.drop_length]
      rfl
    have heof : endsWithNewline ([] : Str) = false := by
      unfold endsWithNewline
      rfl
    simp only [lineRdr.readLine, mkRdr, hrem, heof, Bool.not_false]
    rw [Prod.mk.injEq]
    refine ⟨?_, ?_⟩
    · rw [lineRdr.mk.injEq]
      refine ⟨?_, ?_, hoff, rfl, hctx⟩
      · rw [List.drop_eq_nil_of_le (by simp)]
      · rw [if_neg (by omega : ¬ lines.length + 1 = 0),
          List.getD_eq_default _ _ (by omega : lines.length ≤ lines.length + 1 - 1)]
    · simp

theorem mkRdr_lineOffset (lines : List Str) (r : Nat) :
    (mkRdr lines (r + 1)).lineOffset = offsetAt lines r := by
  show offsetAt lines (r + 1 - 1) = offsetAt lines r
  simp only [Nat.add_sub_cancel]

theorem mkRdr_line (lines : List Str) (r : Nat) :
    (mkRdr lines (r + 1)).line = lines.getD r [] := by
  show (if r + 1 = 0 then ([] : Str) else lines.getD (r + 1 - 1) []) = _
  rw [if_neg (Nat.succ_ne_zero r)]
  simp only [Nat.add_sub_cancel]

theorem mkRdr_offsetPastEnd (lines : List Str) (r : Nat) (hr : r < lines.length) :
    (mkRdr lines (r + 1)).offsetPastEnd = offsetAt lines (r + 1) := by
  unfold lineRdr.offsetPastEnd
  rw [mkRdr_lineOffset, mkRdr_line, offsetAt_succ lines r hr]

theorem untouched_at (lines : List Str) (r q : Nat) (hr : r < lines.length) (hrq : r < q)
    (e : edit) (he : offsetAt lines q ≤ e.Offset) :
    (mkRdr lines (r + 1)).currentLineIsAffectedBy (some e) = false := by
  unfold lineRdr.currentLineIsAffectedBy
  rw [mkRdr_offsetPastEnd lines r hr]
  have h1 : offsetAt lines (r + 1) ≤ offsetAt lines q := offsetAt_mono lines (by omega)
  have : ¬ (e.Offset < offsetAt lines (r + 1)) := by omega
  simp [this]

theorem touched_at (lines : List Str) (i : Nat) (hi : i < lines.length) (e : edit)
    (h1 : offsetAt lines i ≤ e.Offset) (h2 : e.OffsetPastEnd < offsetAt lines (i + 1)) :
    (mkRdr lines (i + 1)).currentLineIsAffectedBy (some e) = true := by
  unfold lineRdr.currentLineIsAffectedBy
  rw [mkRdr_offsetPastEnd lines i hi, mkRdr_lineOffset]
  have he : e.Offset ≤ e.OffsetPastEnd := Nat.le_add_right _ _
  have hA : e.Offset < offsetAt lines (i + 1) := by omega
  have hB : offsetAt lines i ≤ e.OffsetPastEnd := by omega
  simp [hA, hB]

theorem nextline_false_at (lines : List Str) (i : Nat) (hi : i < lines.length) (e : edit)
    (h2 : e.OffsetPastEnd < offsetAt lines (i + 1)) :
    (mkRdr lines (i + 1)).nextLineIsAffectedBy (some e) = false := by
  unfold lineRdr.nextLineIsAffectedBy
  rw [mkRdr_offsetPastEnd lines i hi]
  simp
  omega

theorem affected_none (l : lineRdr) : l.currentLineIsAffectedBy none = false := rfl

theorem addAllGo_attach (lines : List Str) (r : Nat) (hr : r < lines.length) (e : edit)
    (eds' : List edit) (h : hunk)
    (hc1 : offsetAt lines r ≤ e.Offset) (hc2 : e.OffsetPastEnd < offsetAt lines (r + 1))
    (hnext : ∀ e2, eds'.head? = some e2 → offsetAt lines (r + 1) ≤ e2.Offset) :
    addAllGo (mkRdr lines (r + 1)) h (e :: eds') (some e) = (h.addEdit e, eds', some e) := by
  rw [addAllGo, if_pos (touched_at lines r hr e hc1 hc2),
    if_neg (by rw [nextline_false_at lines r hr e hc2]; exact Bool.false_ne_true)]
  cases eds' with
  | nil => rfl
  | cons e2 rest =>
    rw [addAllGo, if_neg (by
      rw [untouched_at lines r (r + 1) hr (Nat.lt_succ_self r) e2
        (hnext e2 rfl)]
      exact Bool.false_ne_true)]

theorem stateAfterEdits_attach (lines : List Str) (r : Nat) (hr : r < lines.length)
    (e : edit) (h : hunk) (hc2 : e.OffsetPastEnd < offsetAt lines (r + 1)) :
    stateAfterEdits (mkRdr lines (r + 1)) h (some e) =
      .EDIT_ADDED_TO_HUNK h (if e.Offset = offsetAt lines r ∧ e.Length = 0 then 1 else 0) := by
  unfold stateAfterEdits
  rw [if_neg (by
    rw [nextline_false_at lines r hr e hc2]
    exact Bool.false_ne_true)]
  congr 1
  unfold lineRdr.editAddsToStart
  rw [mkRdr_lineOffset]
  by_cases hx : e.Offset = offsetAt lines r ∧ e.Length = 0
  · rw [if_pos hx, if_pos (by simp [hx.1, hx.2])]
  · rw [if_neg hx, if_neg (by
      simp only [Bool.and_eq_true, beq_iff_eq]
      exact hx)]

/-- Skipping a run of untouched lines in state `HUNK_NOT_STARTED`. -/
theorem runNotStarted (lines : List Str) (hg : ∀ l ∈ lines, goodLine l)
    (eds : List edit) (q : Nat) (hq : q ≤ lines.length)
    (hqe : ∀ e, eds.head? = some e → offsetAt lines q ≤ e.Offset) :
    ∀ (cnt r fuel : Nat) (res : List hunk), r + cnt = q →
      lines.length + 1 - r ≤ fuel →
      createPatchLoop fuel (mkRdr lines r) .HUNK_NOT_STARTED eds res =
      createPatchLoop (fuel - cnt) (mkRdr lines q) .HUNK_NOT_STARTED eds res := by
  intro cnt
  induction cnt with
  | zero =>
    intro r fuel res hr hfuel
    rw [Nat.sub_zero]
    have : r = q := by omega
    rw [this]
  | succ cnt ih =>
    intro r fuel res hr hfuel
    have hrq : r < q := by omega
    have hrl : r < lines.length := by omega
    obtain ⟨fuel, rfl⟩ : ∃ f, fuel = f + 1 := ⟨fuel - 1, by omega⟩
    rw [createPatchLoop, readLine_mkRdr lines hg r (by omega)]
    simp only
    rw [if_neg (by
      rw [decide_eq_false (by omega : ¬ r = lines.length)]
      exact Bool.false_ne_true)]
    have hcur : (mkRdr lines (r + 1)).currentLineIsAffectedBy eds.head? = false := by
      cases he : eds.head? with
      | none => exact affected_none _
      | some e => exact untouched_at lines r q hrl hrq e (hqe e he)
    rw [if_neg (by rw [hcur]; exact Bool.false_ne_true)]
    rw [ih (r + 1) fuel res (by omega) (by omega),
      show fuel + 1 - (cnt + 1) = fuel - cnt by omega]

/-- The final EOF read: one more loop step at `r = lines.length` runs
`createPatchFinish` on the post-EOF reader. -/
theorem finishStep (lines : List Str) (hg : ∀ l ∈ lines, goodLine l)
    (st : CPState) (eds : List edit) (res : List hunk) (fuel : Nat) (hfuel : 1 ≤ fuel) :
    createPatchLoop fuel (mkRdr lines lines.length) st eds res =
    createPatchFinish (mkRdr lines (lines.length + 1)) st eds res := by
  obtain ⟨fuel, rfl⟩ : ∃ f, fuel = f + 1 := ⟨fuel - 1, by omega⟩
  rw [createPatchLoop, readLine_mkRdr lines hg lines.length (le_refl _)]
  simp

theorem mkRdr_line_eof (lines : List Str) : (mkRdr lines (lines.length + 1)).line = [] := by
  show (if lines.length + 1 = 0 then ([] : Str) else lines.getD (lines.length + 1 - 1) []) = []
  rw [if_neg (Nat.succ_ne_zero _), List.getD_eq_default _ _ (by omega)]

/-- With no pending edits, the loop in `HUNK_NOT_STARTED` runs to the end of
the input and emits nothing further. -/
theorem runNotStartedEnd (lines : List Str) (hg : ∀ l ∈ lines, goodLine l)
    (r fuel : Nat) (res : List hunk) (hr : r ≤ lines.length)
    (hfuel : lines.length + 2 - r ≤ fuel) :
    createPatchLoop fuel (mkRdr lines r) .HUNK_NOT_STARTED [] res = res := by
  rw [runNotStarted lines hg [] lines.length (le_refl _) (by intro e he; cases he)
    (lines.length - r) r fuel res (by omega) (by omega)]
  rw [finishStep lines hg _ _ _ _ (by omega)]
  rfl

/-- A run of untouched lines in state `EDIT_ADDED_TO_HUNK` that never fills
the trailing-context counter: the counter increases by one per line. -/
theorem runEditAdded (lines : List Str) (hg : ∀ l ∈ lines, goodLine l)
    (eds : List edit) (q : Nat) (hq : q ≤ lines.length)
    (hqe : ∀ e, eds.head? = some e → offsetAt lines q ≤ e.Offset) :
    ∀ (cnt r fuel c : Nat) (h : hunk) (res : List hunk), r + cnt ≤ q →
      lines.length + 1 - r ≤ fuel → c + cnt < 2 * num_ctx_lines →
      ∃ h', createPatchLoop fuel (mkRdr lines r) (.EDIT_ADDED_TO_HUNK h c) eds res =
        createPatchLoop (fuel - cnt) (mkRdr lines (r + cnt))
          (.EDIT_ADDED_TO_HUNK h' (c + cnt)) eds res := by
  intro cnt
  induction cnt with
  | zero =>
    intro r fuel c h res hr hfuel _
    refine ⟨h, ?_⟩
    rw [Nat.sub_zero, Nat.add_zero, Nat.add_zero]
  | succ cnt ih =>
    intro r fuel c h res hr hfuel hcnt
    have hrq : r < q := by omega
    have hrl : r < lines.length := by omega
    obtain ⟨fuel, rfl⟩ : ∃ f, fuel = f + 1 := ⟨fuel - 1, by omega⟩
    rw [createPatchLoop, readLine_mkRdr lines hg r (by omega)]
    simp only
    rw [if_neg (by
      rw [decide_eq_false (by omega : ¬ r = lines.length)]
      exact Bool.false_ne_true)]
    have hcur : (mkRdr lines (r + 1)).currentLineIsAffectedBy eds.head? = false := by
      cases he : eds.head? with
      | none => exact affected_none _
      | some e => exact untouched_at lines r q hrl hrq e (hqe e he)
    rw [if_neg (by rw [hcur]; exact Bool.false_ne_true)]
    rw [if_pos (by unfold num_ctx_lines at hcnt ⊢; omega)]
    rcases ih (r + 1) fuel (c + 1) (h.addLine (mkRdr lines (r + 1)).line) res
      (by omega) (by omega) (by omega) with ⟨h', hh'⟩
    refine ⟨h', ?_⟩
    rw [hh', show fuel + 1 - (cnt + 1) = fuel - cnt by omega,
      show c + 1 + cnt = c + (cnt + 1) by omega,
      show r + 1 + cnt = r + (cnt + 1) by omega]

/-- The closing step: an untouched line that fills the trailing-context
counter emits the open hunk and returns to `HUNK_NOT_STARTED`. -/
theorem editAddedCloseStep (lines : List Str) (hg : ∀ l ∈ lines, goodLine l)
    (eds : List edit) (q : Nat) (hq : q ≤ lines.length)
    (hqe : ∀ e, eds.head? = some e → offsetAt lines q ≤ e.Offset)
    (r fuel c : Nat) (h : hunk) (res : List hunk)
    (hrq : r < q) (hfuel : lines.length + 1 - r ≤ fuel)
    (hc : ¬ (c + 1 < 2 * num_ctx_lines)) :
    createPatchLoop fuel (mkRdr lines r) (.EDIT_ADDED_TO_HUNK h c) eds res =
    createPatchLoop (fuel - 1) (mkRdr lines (r + 1)) .HUNK_NOT_STARTED eds
      (res ++ [h.addLine (mkRdr lines (r + 1)).line]) := by
  have hrl : r < lines.length := by omega
  obtain ⟨fuel, rfl⟩ : ∃ f, fuel = f + 1 := ⟨fuel - 1, by omega⟩
  rw [createPatchLoop, readLine_mkRdr lines hg r (by omega)]
  simp only
  rw [if_neg (by
    rw [decide_eq_false (by omega : ¬ r = lines.length)]
    exact Bool.false_ne_true)]
  have hcur : (mkRdr lines (r + 1)).currentLineIsAffectedBy eds.head? = false := by
    cases he : eds.head? with
    | none => exact affected_none _
    | some e => exact untouched_at lines r q hrl hrq e (hqe e he)
  rw [if_neg (by rw [hcur]; exact Bool.false_ne_true)]
  rw [if_neg hc]
  simp only [Nat.add_sub_cancel]

/-- With no pending edits, a run in `EDIT_ADDED_TO_HUNK` to the end of the
input appends exactly one hunk (either at a counter overflow or at EOF). -/
theorem runEditAddedEnd (lines : List Str) (hg : ∀ l ∈ lines, goodLine l) :
    ∀ (cnt r fuel c : Nat) (h : hunk) (res : List hunk), r + cnt = lines.length →
      lines.length + 2 - r ≤ fuel →
      ∃ h', createPatchLoop fuel (mkRdr lines r) (.EDIT_ADDED_TO_HUNK h c) [] res =
        res ++ [h'] := by
  intro cnt
  induction cnt with
  | zero =>
    intro r fuel c h res hr hfuel
    have : r = lines.length := by omega
    subst this
    rw [finishStep lines hg _ _ _ _ (by omega)]
    refine ⟨h, ?_⟩
    simp [createPatchFinish, mkRdr_line_eof]
  | succ cnt ih =>
    intro r fuel c h res hr hfuel
    have hrl : r < lines.length := by omega
    obtain ⟨fuel, rfl⟩ : ∃ f, fuel = f + 1 := ⟨fuel - 1, by omega⟩
    rw [createPatchLoop, readLine_mkRdr lines hg r (by omega)]
    simp only
    rw [if_neg (by
      rw [decide_eq_false (by omega : ¬ r = lines.length)]
      exact Bool.false_ne_true)]
    rw [if_neg (by
      rw [show ([] : List edit).head? = none from rfl, affected_none]
      exact Bool.false_ne_true)]
    by_cases htr : c + 1 < 2 * num_ctx_lines
    · rw [if_pos htr]
      exact ih (r + 1) fuel (c + 1) _ res (by omega) (by omega)
    · rw [if_neg htr]
      refine ⟨h.addLine (mkRdr lines (r + 1)).line, ?_⟩
      exact runNotStartedEnd lines hg (r + 1) fuel _ (by omega) (by omega)

/-- Attaching a single within-line edit from state `HUNK_NOT_STARTED`. -/
theorem attachFromNotStarted (lines : List Str) (hg : ∀ l ∈ lines, goodLine l)
    (r : Nat) (hr : r < lines.length) (e : edit) (eds' : List edit)
    (fuel : Nat) (res : List hunk) (hfuel : lines.length + 1 - r ≤ fuel)
    (hc1 : offsetAt lines r ≤ e.Offset) (hc2 : e.OffsetPastEnd < offsetAt lines (r + 1))
    (hnext : ∀ e2, eds'.head? = some e2 → offsetAt lines (r + 1) ≤ e2.Offset) :
    createPatchLoop fuel (mkRdr lines r) .HUNK_NOT_STARTED (e :: eds') res =
    createPatchLoop (fuel - 1) (mkRdr lines (r + 1))
      (.EDIT_ADDED_TO_HUNK ((startHunk (mkRdr lines (r + 1))).addEdit e)
        (if e.Offset = offsetAt lines r ∧ e.Length = 0 then 1 else 0)) eds' res := by
  obtain ⟨fuel, rfl⟩ : ∃ f, fuel = f + 1 := ⟨fuel - 1, by omega⟩
  rw [createPatchLoop, readLine_mkRdr lines hg r (by omega)]
  simp only
  rw [if_neg (by
    rw [decide_eq_false (by omega : ¬ r = lines.length)]
    exact Bool.false_ne_true)]
  rw [if_pos (by
    show (mkRdr lines (r + 1)).currentLineIsAffectedBy (e :: eds').head? = true
    exact touched_at lines r hr e hc1 hc2)]
  show createPatchLoop fuel (mkRdr lines (r + 1)) _ _ _ = _
  rw [show ((e :: eds').head?) = some e from rfl,
    addAllGo_attach lines r hr e eds' (startHunk (mkRdr lines (r + 1))) hc1 hc2 hnext]
  rw [stateAfterEdits_attach lines r hr e _ hc2]
  simp only [Nat.add_sub_cancel]

/-- Attaching a single within-line edit from state `EDIT_ADDED_TO_HUNK`
(merging into the open hunk). -/
theorem attachFromEditAdded (lines : List Str) (hg : ∀ l ∈ lines, goodLine l)
    (r : Nat) (hr : r < lines.length) (e : edit) (eds' : List edit)
    (fuel c : Nat) (h : hunk) (res : List hunk) (hfuel : lines.length + 1 - r ≤ fuel)
    (hc1 : offsetAt lines r ≤ e.Offset) (hc2 : e.OffsetPastEnd < offsetAt lines (r + 1))
    (hnext : ∀ e2, eds'.head? = some e2 → offsetAt lines (r + 1) ≤ e2.Offset) :
    createPatchLoop fuel (mkRdr lines r) (.EDIT_ADDED_TO_HUNK h c) (e :: eds') res =
    createPatchLoop (fuel - 1) (mkRdr lines (r + 1))
      (.EDIT_ADDED_TO_HUNK ((h.addLine (mkRdr lines (r + 1)).line).addEdit e)
        (if e.Offset = offsetAt lines r ∧ e.Length = 0 then 1 else 0)) eds' res := by
  obtain ⟨fuel, rfl⟩ : ∃ f, fuel = f + 1 := ⟨fuel - 1, by omega⟩
  rw [createPatchLoop, readLine_mkRdr lines hg r (by omega)]
  simp only
  rw [if_neg (by
    rw [decide_eq_false (by omega : ¬ r = lines.length)]
    exact Bool.false_ne_true)]
  rw [if_pos (by
    show (mkRdr lines (r + 1)).currentLineIsAffectedBy (e :: eds').head? = true
    exact touched_at lines r hr e hc1 hc2)]
  rw [show ((e :: eds').head?) = some e from rfl,
    addAllGo_attach lines r hr e eds' (h.addLine (mkRdr lines (r + 1)).line) hc1 hc2 hnext]
  rw [stateAfterEdits_attach lines r hr e _ hc2]
  simp only [Nat.add_sub_cancel]

end Godoctor

/-! ### The Myers search: optimality and termination -/

namespace Godoctor

theorem lcsLen_nil_left [DecidableEq α] (fuel : Nat) (b : List α) :
    lcsLen fuel ([] : List α) b = 0 := by
  cases fuel <;> cases b <;> rfl

theorem lcsLen_nil_right [DecidableEq α] (fuel : Nat) (a : List α) :
    lcsLen fuel a ([] : List α) = 0 := by
  cases fuel <;> cases a <;> rfl

theorem lcs_nil_left [DecidableEq α] (b : List α) : lcs ([] : List α) b = 0 :=
  lcsLen_nil_left _ b

theorem lcs_nil_right [DecidableEq α] (a : List α) : lcs a ([] : List α) = 0 :=
  lcsLen_nil_right _ a

theorem lcsLen_succ_cons [DecidableEq α] (fuel : Nat) (x y : α) (xs ys : List α) :
    lcsLen (fuel + 1) (x :: xs) (y :: ys) =
      if x = y then lcsLen fuel xs ys + 1
      else max (lcsLen fuel xs (y :: ys)) (lcsLen fuel (x :: xs) ys) := rfl

/-- Any sufficient fuel computes the canonical LCS length. -/
theorem lcsLen_fuel [DecidableEq α] :
    ∀ (fuel : Nat) (a b : List α), a.length + b.length ≤ fuel →
      lcsLen fuel a b = lcs a b := by
  intro fuel
  induction fuel using Nat.strong_induction_on with
  | _ fuel ih =>
    cases fuel with
    | zero =>
      intro a b h
      have ha : a = [] := List.eq_nil_of_length_eq_zero (by omega)
      have hb : b = [] := List.eq_nil_of_length_eq_zero (by omega)
      subst ha; subst hb; rfl
    | succ g =>
      intro a b h
      match a, b with
      | [], b => rw [lcsLen_nil_left, lcs_nil_left]
      | x :: xs, [] => rw [lcsLen_nil_right, lcs_nil_right]
      | x :: xs, y :: ys =>
        simp only [List.length_cons] at h
        have hcan : lcs (x :: xs) (y :: ys)
            = if x = y then lcsLen (xs.length + ys.length + 1) xs ys + 1
              else max (lcsLen (xs.length + ys.length + 1) xs (y :: ys))
                (lcsLen (xs.length + ys.length + 1) (x :: xs) ys) := by
          show lcsLen ((x :: xs).length + (y :: ys).length) (x :: xs) (y :: ys) = _
          rw [show (x :: xs).length + (y :: ys).length = (xs.length + ys.length + 1) + 1 by
            simp only [List.length_cons]; omega]
          exact lcsLen_succ_cons _ _ _ _ _
        rw [lcsLen_succ_cons, hcan]
        rw [ih g (by omega) xs ys (by omega),
          ih g (by omega) xs (y :: ys) (by simp only [List.length_cons]; omega),
          ih g (by omega) (x :: xs) ys (by simp only [List.length_cons]; omega),
          ih (xs.length + ys.length + 1) (by omega) xs ys (by omega),
          ih (xs.length + ys.length + 1) (by omega) xs (y :: ys)
            (by simp only [List.length_cons]; omega),
          ih (xs.length + ys.length + 1) (by omega) (x :: xs) ys
            (by simp only [List.length_cons]; omega)]

/-- The standard recurrence for the canonical LCS length. -/
theorem lcs_cons_cons [DecidableEq α] (x y : α) (xs ys : List α) :
    lcs (x :: xs) (y :: ys) =
      if x = y then lcs xs ys + 1
      else max (lcs xs (y :: ys)) (lcs (x :: xs) ys) := by
  show lcsLen ((x :: xs).length + (y :: ys).length) (x :: xs) (y :: ys) = _
  rw [show (x :: xs).length + (y :: ys).length = (xs.length + ys.length + 1) + 1 by
    simp only [List.length_cons]; omega]
  rw [lcsLen_succ_cons,
    lcsLen_fuel _ xs ys (by omega),
    lcsLen_fuel _ xs (y :: ys) (by simp only [List.length_cons]; omega),
    lcsLen_fuel _ (x :: xs) ys (by simp only [List.length_cons]; omega)]

/-- Monotonicity facts for the LCS length, proven jointly. -/
theorem lcs_mono_aux [DecidableEq α] :
    ∀ (N : Nat) (as bs : List α), as.length + bs.length ≤ N →
      ((∀ y ys, bs = y :: ys → lcs as bs ≤ lcs as ys + 1) ∧
       (∀ x xs, as = x :: xs → lcs as bs ≤ lcs xs bs + 1) ∧
       (∀ x : α, lcs as bs ≤ lcs (x :: as) bs) ∧
       (∀ y : α, lcs as bs ≤ lcs as (y :: bs))) := by
  intro N
  induction N using Nat.strong_induction_on with
  | _ N ih =>
    intro as bs h
    have hC : ∀ y ys, bs = y :: ys → lcs as bs ≤ lcs as ys + 1 := by
      intro y ys hbs
      subst hbs
      match as with
      | [] => rw [lcs_nil_left, lcs_nil_left]; omega
      | a :: as' =>
        simp only [List.length_cons] at h
        rw [lcs_cons_cons]
        by_cases hay : a = y
        · rw [if_pos hay]
          subst hay
          have := (ih (N - 1) (by omega) as' ys (by omega)).2.2.1 a
          omega
        · rw [if_neg hay]
          have h1 := (ih (N - 1) (by omega) as' (y :: ys)
            (by simp only [List.length_cons]; omega)).1 y ys rfl
          have h2 := (ih (N - 1) (by omega) as' ys (by omega)).2.2.1 a
          rw [Nat.max_le]
          omega
    have hD : ∀ x xs, as = x :: xs → lcs as bs ≤ lcs xs bs + 1 := by
      intro x xs has
      subst has
      match bs with
      | [] => rw [lcs_nil_right, lcs_nil_right]; omega
      | b :: bs' =>
        simp only [List.length_cons] at h
        rw [lcs_cons_cons]
        by_cases hxb : x = b
        · rw [if_pos hxb]
          subst hxb
          have := (ih (N - 1) (by omega) xs bs' (by omega)).2.2.2 x
          omega
        · rw [if_neg hxb]
          have h2 := (ih (N - 1) (by omega) xs bs' (by omega)).2.2.2 b
          have h4 : lcs (x :: xs) bs' ≤ lcs xs bs' + 1 :=
            (ih (N - 1) (by omega) (x :: xs) bs'
              (by simp only [List.length_cons]; omega)).2.1 x xs rfl
          rw [Nat.max_le]
          omega
    refine ⟨hC, hD, ?_, ?_⟩
    · intro x
      match bs with
      | [] => rw [lcs_nil_right, lcs_nil_right]
      | y :: ys =>
        rw [lcs_cons_cons]
        by_cases hxy : x = y
        · rw [if_pos hxy]
          exact hC y ys rfl
        · rw [if_neg hxy]
          exact Nat.le_max_left _ _
    · intro y
      match as with
      | [] => rw [lcs_nil_left, lcs_nil_left]
      | x :: xs =>
        rw [lcs_cons_cons]
        by_cases hxy : x = y
        · rw [if_pos hxy]
          exact hD x xs rfl
        · rw [if_neg hxy]
          exact Nat.le_max_right _ _

theorem lcs_cons_left_le [DecidableEq α] (x : α) (as bs : List α) :
    lcs as bs ≤ lcs (x :: as) bs :=
  (lcs_mono_aux (as.length + bs.length) as bs le_rfl).2.2.1 x

theorem lcs_cons_right_le [DecidableEq α] (y : α) (as bs : List α) :
    lcs as bs ≤ lcs as (y :: bs) :=
  (lcs_mono_aux (as.length + bs.length) as bs le_rfl).2.2.2 y

/-- The LCS length is at most each input's length. -/
theorem lcs_le_len [DecidableEq α] :
    ∀ (N : Nat) (a b : List α), a.length + b.length ≤ N →
      lcs a b ≤ a.length ∧ lcs a b ≤ b.length := by
  intro N
  induction N using Nat.strong_induction_on with
  | _ N ih =>
    intro a b h
    match a, b with
    | [], b => rw [lcs_nil_left]; omega
    | x :: xs, [] => rw [lcs_nil_right]; simp
    | x :: xs, y :: ys =>
      simp only [List.length_cons] at h ⊢
      rw [lcs_cons_cons]
      have h1 := ih (N - 1) (by omega) xs ys (by omega)
      have h2 := ih (N - 1) (by omega) xs (y :: ys) (by simp only [List.length_cons]; omega)
      have h3 := ih (N - 1) (by omega) (x :: xs) ys (by simp only [List.length_cons]; omega)
      simp only [List.length_cons] at h2 h3
      by_cases hxy : x = y
      · rw [if_pos hxy]; omega
      · rw [if_neg hxy]
        constructor <;> rw [Nat.max_le] <;> omega

/-- Lower bound: any edit script between `as` and `bs` uses at least
`|as| + |bs| - 2·lcs as bs` non-copy operations (stated additively). -/
theorem EditScript.lcs_lower :
    ∀ {a b : List Str} {d : Nat}, EditScript a b d →
      a.length + b.length ≤ d + 2 * lcs a b := by
  intro a b d h
  induction h with
  | nil => simp [lcs_nil_left]
  | @del x as bs d h ih =>
    have := lcs_cons_left_le x as bs
    simp only [List.length_cons]
    omega
  | @ins y as bs d h ih =>
    have := lcs_cons_right_le y as bs
    simp only [List.length_cons]
    omega
  | @copy x as bs d h ih =>
    have hc : lcs (x :: as) (x :: bs) = lcs as bs + 1 := by
      rw [lcs_cons_cons, if_pos rfl]
    simp only [List.length_cons]
    omega

theorem EditScript_insAll : ∀ b : List Str, EditScript [] b b.length := by
  intro b
  induction b with
  | nil => exact .nil
  | cons y ys ih => exact .ins y ih

theorem EditScript_delAll : ∀ a : List Str, EditScript a [] a.length := by
  intro a
  induction a with
  | nil => exact .nil
  | cons x xs ih => exact .del x ih

/-- Upper bound: a script achieving the LCS bound exists. -/
theorem lcs_script_exists :
    ∀ (N : Nat) (a b : List Str), a.length + b.length ≤ N →
      ∃ d, EditScript a b d ∧ d + 2 * lcs a b = a.length + b.length := by
  intro N
  induction N using Nat.strong_induction_on with
  | _ N ih =>
    intro a b h
    match a, b with
    | [], b =>
      exact ⟨b.length, EditScript_insAll b, by rw [lcs_nil_left]; simp⟩
    | x :: xs, [] =>
      exact ⟨(x :: xs).length, EditScript_delAll _, by rw [lcs_nil_right]; simp⟩
    | x :: xs, y :: ys =>
      simp only [List.length_cons] at h ⊢
      rw [lcs_cons_cons]
      by_cases hxy : x = y
      · rw [if_pos hxy]
        subst hxy
        obtain ⟨d, s, e⟩ := ih (N - 1) (by omega) xs ys (by omega)
        exact ⟨d, .copy x s, by omega⟩
      · rw [if_neg hxy]
        obtain ⟨d1, s1, e1⟩ := ih (N - 1) (by omega) xs (y :: ys)
          (by simp only [List.length_cons]; omega)
        obtain ⟨d2, s2, e2⟩ := ih (N - 1) (by omega) (x :: xs) ys
          (by simp only [List.length_cons]; omega)
        simp only [List.length_cons] at e1 e2
        rcases Nat.le_total (lcs xs (y :: ys)) (lcs (x :: xs) ys) with hle | hle
        · refine ⟨d2 + 1, .ins y s2, ?_⟩
          rw [Nat.max_eq_right hle]
          omega
        · refine ⟨d1 + 1, .del x s1, ?_⟩
          rw [Nat.max_eq_left hle]
          omega

/-- A zero-cost script forces equality. -/
theorem EditScript_zero :
    ∀ {a b : List Str} {d : Nat}, EditScript a b d → d = 0 → a = b := by
  intro a b d h
  induction h with
  | nil => intro _; rfl
  | del x h ih => intro h0; exact absurd h0 (Nat.succ_ne_zero _)
  | ins y h ih => intro h0; exact absurd h0 (Nat.succ_ne_zero _)
  | copy x h ih => intro h0; rw [ih h0]

theorem EditScript.snoc_del :
    ∀ {as bs : List Str} {d : Nat} (u : Str),
      EditScript as bs d → EditScript (as ++ [u]) bs (d + 1) := by
  intro as bs d u h
  induction h with
  | nil => exact .del u .nil
  | @del x as bs d h ih => exact .del x ih
  | @ins y as bs d h ih => exact .ins y ih
  | @copy x as bs d h ih => exact .copy x ih

theorem EditScript.snoc_ins :
    ∀ {as bs : List Str} {d : Nat} (u : Str),
      EditScript as bs d → EditScript as (bs ++ [u]) (d + 1) := by
  intro as bs d u h
  induction h with
  | nil => exact .ins u .nil
  | @del x as bs d h ih => exact .del x ih
  | @ins y as bs d h ih => exact .ins y ih
  | @copy x as bs d h ih => exact .copy x ih

theorem EditScript.snoc_copy :
    ∀ {as bs : List Str} {d : Nat} (u : Str),
      EditScript as bs d → EditScript (as ++ [u]) (bs ++ [u]) d := by
  intro as bs d u h
  induction h with
  | nil => exact .copy u .nil
  | @del x as bs d h ih => exact .del x ih
  | @ins y as bs d h ih => exact .ins y ih
  | @copy x as bs d h ih => exact .copy x ih

/-- An extended-grid point `(x, y)` reachable with `d` non-diagonal moves
yields an edit script between the clamped prefixes, with the overshoot past
the grid edges refunded from `d`. -/
theorem ExtReach.toScript :
    ∀ {a b : List Str} {x y d : Nat}, ExtReach a b x y d →
      ∃ d', EditScript (a.take x) (b.take y) d' ∧
        d' + (x - a.length) + (y - b.length) ≤ d := by
  intro a b x y d h
  induction h with
  | base => exact ⟨0, .nil, by omega⟩
  | @del x y d h ih =>
    obtain ⟨d', s, hd⟩ := ih
    by_cases hx : x < a.length
    · refine ⟨d' + 1, ?_, by omega⟩
      rw [List.take_succ, List.getElem?_eq_getElem hx]
      exact EditScript.snoc_del _ s
    · have e : a.take (x + 1) = a.take x := by
        rw [List.take_of_length_le (by omega), List.take_of_length_le (by omega)]
      exact ⟨d', e ▸ s, by omega⟩
  | @ins x y d h ih =>
    obtain ⟨d', s, hd⟩ := ih
    by_cases hy : y < b.length
    · refine ⟨d' + 1, ?_, by omega⟩
      rw [List.take_succ, List.getElem?_eq_getElem hy]
      exact EditScript.snoc_ins _ s
    · have e : b.take (y + 1) = b.take y := by
        rw [List.take_of_length_le (by omega), List.take_of_length_le (by omega)]
      exact ⟨d', e ▸ s, by omega⟩
  | @diag x y d h hx hy he ih =>
    obtain ⟨d', s, hd⟩ := ih
    refine ⟨d', ?_, by omega⟩
    have e1 : a[x]? = some (a.getD x []) := by
      rw [List.getElem?_eq_getElem hx]
      exact congrArg some (List.getD_eq_getElem a [] hx).symm
    have e2 : b[y]? = some (a.getD x []) := by
      rw [List.getElem?_eq_getElem hy]
      exact congrArg some ((List.getD_eq_getElem b [] hy).symm.trans he.symm)
    rw [List.take_succ, List.take_succ, e1, e2]
    exact EditScript.snoc_copy _ s

/-- Fire exactness source: reaching at or past the corner yields a full
script with the overshoot refunded. -/
theorem ExtReach.corner {a b : List Str} {x y d : Nat} (h : ExtReach a b x y d)
    (hx : a.length ≤ x) (hy : b.length ≤ y) :
    ∃ d', EditScript a b d' ∧ d' + (x - a.length) + (y - b.length) ≤ d := by
  obtain ⟨d', s, hd⟩ := h.toScript
  rw [List.take_of_length_le hx, List.take_of_length_le hy] at s
  exact ⟨d', s, hd⟩

/-- An edit script between suffixes is a tail path in the grid. -/
theorem EditScript.toTail :
    ∀ {l1 l2 : List Str} {d : Nat}, EditScript l1 l2 d →
      ∀ {a b : List Str} (x y : Nat), l1 = a.drop x → l2 = b.drop y →
        x ≤ a.length → y ≤ b.length → TailReach a b x y d := by
  intro l1 l2 d h
  induction h with
  | nil =>
    intro a b x y h1 h2 hx hy
    have ex : x = a.length := by
      have := congrArg List.length h1
      simp only [List.length_nil, List.length_drop] at this
      omega
    have ey : y = b.length := by
      have := congrArg List.length h2
      simp only [List.length_nil, List.length_drop] at this
      omega
    rw [ex, ey]
    exact .base
  | @del u as bs d h ih =>
    intro a b x y h1 h2 hx hy
    have hlt : x < a.length := by
      have := congrArg List.length h1
      simp only [List.length_cons, List.length_drop] at this
      omega
    have hdx := h1.trans (List.drop_eq_getElem_cons hlt)
    injection hdx with hu has
    exact TailReach.del hlt (ih (x + 1) y has h2 (by omega) hy)
  | @ins u as bs d h ih =>
    intro a b x y h1 h2 hx hy
    have hlt : y < b.length := by
      have := congrArg List.length h2
      simp only [List.length_cons, List.length_drop] at this
      omega
    have hdy := h2.trans (List.drop_eq_getElem_cons hlt)
    injection hdy with hu hbs
    exact TailReach.ins hlt (ih x (y + 1) h1 hbs hx (by omega))
  | @copy u as bs d h ih =>
    intro a b x y h1 h2 hx hy
    have hltx : x < a.length := by
      have := congrArg List.length h1
      simp only [List.length_cons, List.length_drop] at this
      omega
    have hlty : y < b.length := by
      have := congrArg List.length h2
      simp only [List.length_cons, List.length_drop] at this
      omega
    have hdx := h1.trans (List.drop_eq_getElem_cons hltx)
    have hdy := h2.trans (List.drop_eq_getElem_cons hlty)
    injection hdx with hu has
    injection hdy with hu' hbs
    have he : a.getD x [] = b.getD y [] := by
      rw [List.getD_eq_getElem a [] hltx, List.getD_eq_getElem b [] hlty, ← hu, ← hu']
    exact TailReach.diag hltx hlty he (ih (x + 1) (y + 1) has hbs (by omega) (by omega))

/-- Concatenating a forward path with a tail path reaches the corner. -/
theorem TailReach.toGrid :
    ∀ {a b : List Str} {x y d : Nat}, TailReach a b x y d →
      ∀ {e : Nat}, GridReach a b x y e →
        GridReach a b a.length b.length (e + d) := by
  intro a b x y d h
  induction h with
  | base => intro e g; exact g
  | @del x y d hx h ih =>
    intro e g
    have h2 := ih (GridReach.del g hx)
    rw [show e + (d + 1) = e + 1 + d by omega]
    exact h2
  | @ins x y d hy h ih =>
    intro e g
    have h2 := ih (GridReach.ins g hy)
    rw [show e + (d + 1) = e + 1 + d by omega]
    exact h2
  | @diag x y d hx hy he h ih =>
    intro e g
    exact ih (GridReach.diag g hx hy he)

/-- An edit script between `a` and `b` is an in-grid path to the corner. -/
theorem EditScript.toGridCorner {a b : List Str} {d : Nat}
    (h : EditScript a b d) : GridReach a b a.length b.length d := by
  have ht : TailReach a b 0 0 d :=
    h.toTail 0 0 rfl rfl (Nat.zero_le _) (Nat.zero_le _)
  have h2 := ht.toGrid GridReach.base
  rw [Nat.zero_add] at h2
  exact h2

/-- In-grid reachable points stay inside the grid. -/
theorem GridReach.le_len :
    ∀ {a b : List Str} {x y d : Nat}, GridReach a b x y d →
      x ≤ a.length ∧ y ≤ b.length := by
  intro a b x y d h
  induction h with
  | base => exact ⟨Nat.zero_le _, Nat.zero_le _⟩
  | del h hx ih => exact ⟨by omega, ih.2⟩
  | ins h hy ih => exact ⟨ih.1, by omega⟩
  | diag h hx hy he ih => exact ⟨by omega, by omega⟩

/-- Every in-grid path decomposes as a (possibly empty) trailing snake
preceded by either the origin or a final non-diagonal move. -/
theorem GridReach.decomp :
    ∀ {a b : List Str} {x y d : Nat}, GridReach a b x y d →
      ∃ p q len, x = p + len ∧ y = q + len ∧ SnakeRun a b p q len ∧
        ((d = 0 ∧ p = 0 ∧ q = 0) ∨
         (∃ d0, d = d0 + 1 ∧
           ((∃ p0, p = p0 + 1 ∧ p0 < a.length ∧ GridReach a b p0 q d0) ∨
            (∃ q0, q = q0 + 1 ∧ q0 < b.length ∧ GridReach a b p q0 d0)))) := by
  intro a b x y d h
  induction h with
  | base =>
    exact ⟨0, 0, 0, rfl, rfl, fun t ht => absurd ht (Nat.not_lt_zero t),
      Or.inl ⟨rfl, rfl, rfl⟩⟩
  | @del x y d h hx ih =>
    exact ⟨x + 1, y, 0, rfl, rfl, fun t ht => absurd ht (Nat.not_lt_zero t),
      Or.inr ⟨d, rfl, Or.inl ⟨x, rfl, hx, h⟩⟩⟩
  | @ins x y d h hy ih =>
    exact ⟨x, y + 1, 0, rfl, rfl, fun t ht => absurd ht (Nat.not_lt_zero t),
      Or.inr ⟨d, rfl, Or.inr ⟨y, rfl, hy, h⟩⟩⟩
  | @diag x y d h hx hy he ih =>
    obtain ⟨p, q, len, hx', hy', run, rest⟩ := ih
    refine ⟨p, q, len + 1, by omega, by omega, ?_, rest⟩
    intro t ht
    by_cases hlt : t < len
    · exact run t hlt
    · have heq : t = len := by omega
      subst heq
      refine ⟨by omega, by omega, ?_⟩
      rw [show p + t = x by omega, show q + t = y by omega]
      exact he

/-- Packing the sign bit preserves the magnitude. -/
theorem abs_ite_encode (vert : Bool) (x : Nat) :
    abs (if vert then -(x : Int) else (x : Int)) = (x : Int) := by
  cases vert <;> unfold abs <;> split <;> omega

theorem getV_some {v : List Int} {i : Int} (h0 : 0 ≤ i) (h1 : i < (v.length : Int)) :
    getV v i = some (v.getD i.toNat 0) := if_pos ⟨h0, h1⟩

theorem setV_some {v : List Int} {i x : Int} (h0 : 0 ≤ i) (h1 : i < (v.length : Int)) :
    setV v i x = some (v.set i.toNat x) := if_pos ⟨h0, h1⟩

theorem getV_set_self {v : List Int} {i x : Int} (h0 : 0 ≤ i)
    (h1 : i < (v.length : Int)) : getV (v.set i.toNat x) i = some x := by
  unfold getV
  simp only [List.length_set]
  rw [if_pos ⟨h0, h1⟩]
  congr 1
  rw [List.getD_eq_getElem _ _ (by simp only [List.length_set]; omega)]
  exact List.getElem_set_self _

theorem getV_set_ne (v : List Int) (i j x : Int) (hi : 0 ≤ i) (hij : j ≠ i) :
    getV (v.set i.toNat x) j = getV v j := by
  unfold getV
  simp only [List.length_set]
  by_cases hj : 0 ≤ j ∧ j < (v.length : Int)
  · rw [if_pos hj, if_pos hj]
    congr 1
    rw [List.getD_eq_getElem _ _ (by simp only [List.length_set]; omega),
      List.getD_eq_getElem _ _ (by omega)]
    exact List.getElem_set_ne (by omega) _
  · rw [if_neg hj, if_neg hj]

theorem getD_eq_get (a : List Str) (x : Nat) (hx : x < a.length) :
    a.getD x [] = a.get ⟨x, hx⟩ := by
  rw [List.getD_eq_getElem a [] hx, List.get_eq_getElem]

/-- The greedy extension never moves backwards. -/
theorem snake_ge (a b : List Str) :
    ∀ (fuel x : Nat) (y : Int) (r : Nat), snake a b fuel x y = some r → x ≤ r := by
  intro fuel
  induction fuel with
  | zero =>
    intro x y r h
    simp only [snake, Option.some.injEq] at h
    omega
  | succ f ih =>
    intro x y r h
    unfold snake at h
    split at h
    · split at h
      · split at h
        · split at h
          · exact le_trans (by omega) (ih _ _ _ h)
          · simp only [Option.some.injEq] at h; omega
        · exact absurd h (by simp)
      · simp only [Option.some.injEq] at h; omega
    · simp only [Option.some.injEq] at h; omega

/-- On a diagonal `k ≤ x` the greedy extension always succeeds. -/
theorem snake_some (a b : List Str) :
    ∀ (fuel x : Nat) (k : Int), k ≤ (x : Int) →
      ∃ r : Nat, snake a b fuel x ((x : Int) - k) = some r ∧ x ≤ r ∧ k ≤ (r : Int) := by
  intro fuel
  induction fuel with
  | zero => intro x k hk; exact ⟨x, rfl, le_rfl, hk⟩
  | succ f ih =>
    intro x k hk
    unfold snake
    split
    · split
      · rw [if_pos (show (0 : Int) ≤ (x : Int) - k by omega)]
        split
        · rw [show (x : Int) - k + 1 = ((x + 1 : Nat) : Int) - k by push_cast; ring]
          obtain ⟨r, hr, hxr, hkr⟩ := ih (x + 1) k (by omega)
          exact ⟨r, hr, by omega, hkr⟩
        · exact ⟨x, rfl, le_rfl, hk⟩
      · exact ⟨x, rfl, le_rfl, hk⟩
    · exact ⟨x, rfl, le_rfl, hk⟩

/-- The greedy extension preserves extended-grid reachability. -/
theorem snake_reach (a b : List Str) :
    ∀ (fuel x : Nat) (k : Int) (d : Nat) (r : Nat), k ≤ (x : Int) →
      ExtReach a b x ((x : Int) - k).toNat d →
      snake a b fuel x ((x : Int) - k) = some r →
      ExtReach a b r (((r : Int) - k).toNat) d := by
  intro fuel
  induction fuel with
  | zero =>
    intro x k d r hk he h
    simp only [snake, Option.some.injEq] at h
    subst h
    exact he
  | succ f ih =>
    intro x k d r hk he h
    unfold snake at h
    split at h
    case isTrue hx =>
      split at h
      case isTrue hym =>
        rw [if_pos (show (0 : Int) ≤ (x : Int) - k by omega)] at h
        split at h
        case isTrue hmatch =>
          have hy' : ((x : Int) - k).toNat < b.length := by omega
          have heq : a.getD x [] = b.getD ((x : Int) - k).toNat [] := by
            rw [getD_eq_get a x hx]
            exact hmatch
          have hnext := ExtReach.diag he hx hy' heq
          rw [show ((x : Int) - k).toNat + 1 = (((x + 1 : Nat) : Int) - k).toNat by
            push_cast; omega] at hnext
          rw [show (x : Int) - k + 1 = ((x + 1 : Nat) : Int) - k by push_cast; ring] at h
          exact ih (x + 1) k d r (by omega) hnext h
        case isFalse hne =>
          simp only [Option.some.injEq] at h
          subst h
          exact he
      case isFalse hym =>
        simp only [Option.some.injEq] at h
        subst h
        exact he
    case isFalse hx =>
      simp only [Option.some.injEq] at h
      subst h
      exact he

/-- Slide lemma: started at or before the end of a matching run on the same
diagonal, the greedy extension reaches at least the end of the run. -/
theorem snake_slide (a b : List Str) :
    ∀ (fuel x0 : Nat) (k : Int) (p q len r : Nat),
      SnakeRun a b p q len → (p : Int) - (q : Int) = k →
      p ≤ x0 → x0 ≤ p + len → p + len ≤ x0 + fuel →
      snake a b fuel x0 ((x0 : Int) - k) = some r → p + len ≤ r := by
  intro fuel
  induction fuel with
  | zero =>
    intro x0 k p q len r run hk hp hx hfuel h
    simp only [snake, Option.some.injEq] at h
    omega
  | succ f ih =>
    intro x0 k p q len r run hk hp hx hfuel h
    by_cases hend : p + len ≤ x0
    · exact le_trans hend (snake_ge a b _ _ _ _ h)
    · have ht : x0 - p < len := by omega
      obtain ⟨hxn, hym, heq⟩ := run (x0 - p) ht
      rw [show p + (x0 - p) = x0 by omega] at hxn heq
      unfold snake at h
      split at h
      next hx' =>
        split at h
        next hym' =>
          rw [if_pos (show (0 : Int) ≤ (x0 : Int) - k by omega)] at h
          split at h
          next hmatch =>
            rw [show (x0 : Int) - k + 1 = ((x0 + 1 : Nat) : Int) - k by push_cast; ring] at h
            exact ih (x0 + 1) k p q len r run hk (by omega) (by omega) (by omega) h
          next hne =>
            exfalso
            apply hne
            rw [← getD_eq_get a x0 hx', heq]
            congr 1
            omega
        next hym' =>
          exfalso
          apply hym'
          omega
      next hx' => exact absurd hxn hx'

/-- Diagonal indices of in-grid reachable points are bounded by the move
count. -/
theorem GridReach.diag_bound :
    ∀ {a b : List Str} {x y d : Nat}, GridReach a b x y d →
      -(d : Int) ≤ (x : Int) - y ∧ (x : Int) - y ≤ (d : Int) := by
  intro a b x y d h
  induction h with
  | base => simp
  | del h hx ih => push_cast at ih ⊢; omega
  | ins h hy ih => push_cast at ih ⊢; omega
  | diag h hx hy he ih => push_cast at ih ⊢; omega

/-- One unrolling of the inner loop, given that all three fallible
sub-computations succeed. -/
theorem kLoop_step_eq (a b : List Str) (offset d count : Nat) (k : Int)
    (v : List Int) (x0 : Nat) (vert : Bool) (x : Nat) (v' : List Int)
    (hreads : (if k = -(d : Int) then
        match getV v ((offset : Int) + k + 1) with
        | none => none
        | some t => some ((abs t).toNat, false)
      else if k = (d : Int) then
        match getV v ((offset : Int) + k - 1) with
        | none => none
        | some t => some ((abs t).toNat + 1, true)
      else
        match getV v ((offset : Int) + k - 1), getV v ((offset : Int) + k + 1) with
        | some tm, some tp =>
          if abs tm < abs tp then some ((abs tp).toNat, false)
          else some ((abs tm).toNat + 1, true)
        | _, _ => none) = some (x0, vert))
    (hsnake : snake a b a.length x0 ((x0 : Int) - k) = some x)
    (hset : setV v ((offset : Int) + k) (if vert then -(x : Int) else (x : Int)) = some v') :
    kLoop a b offset d (count + 1) k v =
      if a.length ≤ x ∧ (b.length : Int) ≤ (x : Int) - k then
        some (Sum.inl (k, x, (x : Int) - k, v'))
      else kLoop a b offset d count (k + 2) v' := by
  conv_lhs => unfold kLoop
  rw [hreads]
  simp only [hsnake, hset]

/-- The horizontal candidate: the slot on diagonal `k + 1` moved down one
row lands on diagonal `k` one iteration later. -/
theorem ext_ins_of_slot {a b : List Str} {offset d0 : Nat} {v : List Int} {k : Int}
    (h : SlotSpec a b offset d0 v (k + 1)) :
    ∃ (s : Int) (sx : Nat),
      getV v ((offset : Int) + (k + 1)) = some s ∧ abs s = (sx : Int) ∧
      k ≤ (sx : Int) ∧ ExtReach a b sx (((sx : Int) - k).toNat) (d0 + 1) ∧
      ∀ p q : Nat, (p : Int) - q = k + 1 → GridReach a b p q d0 → p ≤ sx := by
  obtain ⟨s, sx, hg, habs, hks, hreach, hdom⟩ := h
  refine ⟨s, sx, hg, habs, by omega, ?_, fun p q hpq hgr => hdom p q hgr hpq⟩
  have hmove := ExtReach.ins hreach
  rw [show ((sx : Int) - (k + 1)).toNat + 1 = ((sx : Int) - k).toNat by omega] at hmove
  exact hmove

/-- The vertical candidate: the slot on diagonal `k - 1` moved right one
column lands on diagonal `k` one iteration later. -/
theorem ext_del_of_slot {a b : List Str} {offset d0 : Nat} {v : List Int} {k : Int}
    (h : SlotSpec a b offset d0 v (k - 1)) :
    ∃ (s : Int) (sx : Nat),
      getV v ((offset : Int) + (k - 1)) = some s ∧ abs s = (sx : Int) ∧
      k ≤ ((sx + 1 : Nat) : Int) ∧
      ExtReach a b (sx + 1) ((((sx + 1 : Nat) : Int) - k).toNat) (d0 + 1) ∧
      ∀ p q : Nat, (p : Int) - q = k - 1 → GridReach a b p q d0 → p ≤ sx := by
  obtain ⟨s, sx, hg, habs, hks, hreach, hdom⟩ := h
  refine ⟨s, sx, hg, habs, by push_cast; omega, ?_, fun p q hpq hgr => hdom p q hgr hpq⟩
  have hmove := ExtReach.del hreach
  rw [show ((sx : Int) - (k - 1)).toNat = (((sx + 1 : Nat) : Int) - k).toNat by push_cast; omega]
    at hmove
  exact hmove

/-- Processing one diagonal `k` during iteration `d0 + 1`: the computed
value is realizable, dominates all in-grid `(d0+1)`-move paths ending on
diagonal `k`, and the loop either fires there or continues on `k + 2` with
the slot updated. -/
theorem kStep (a b : List Str) (offset d0 : Nat) (v : List Int) (k : Int)
    (hlen : v.length = 2 * offset)
    (hoff : (d0 : Int) + 1 ≤ (offset : Int))
    (hkw : k < (offset : Int))
    (hklo : -(d0 : Int) - 1 ≤ k) (hkhi : k ≤ (d0 : Int) + 1)
    (hpar : ∃ t : Nat, k = -(d0 : Int) - 1 + 2 * (t : Int))
    (hprev : ∀ kk : Int,
      (∃ t : Nat, (t : Int) ≤ (d0 : Int) ∧ kk = -(d0 : Int) + 2 * (t : Int)) →
      SlotSpec a b offset d0 v kk) :
    ∃ (x : Nat) (vert : Bool) (v' : List Int),
      k ≤ (x : Int) ∧
      ExtReach a b x (((x : Int) - k).toNat) (d0 + 1) ∧
      (∀ xq yq : Nat, GridReach a b xq yq (d0 + 1) →
        (xq : Int) - (yq : Int) = k → xq ≤ x) ∧
      v'.length = 2 * offset ∧
      (∀ j : Int, j ≠ (offset : Int) + k → getV v' j = getV v j) ∧
      getV v' ((offset : Int) + k) = some (if vert then -(x : Int) else (x : Int)) ∧
      ∀ count : Nat,
        kLoop a b offset (d0 + 1) (count + 1) k v =
          if a.length ≤ x ∧ (b.length : Int) ≤ (x : Int) - k then
            some (Sum.inl (k, x, (x : Int) - k, v'))
          else kLoop a b offset (d0 + 1) count (k + 2) v' := by
  obtain ⟨t, ht⟩ := hpar
  have main : ∃ (x0 : Nat) (vert : Bool),
      (if k = -((d0 + 1 : Nat) : Int) then
        match getV v ((offset : Int) + k + 1) with
        | none => none
        | some t => some ((abs t).toNat, false)
      else if k = ((d0 + 1 : Nat) : Int) then
        match getV v ((offset : Int) + k - 1) with
        | none => none
        | some t => some ((abs t).toNat + 1, true)
      else
        match getV v ((offset : Int) + k - 1), getV v ((offset : Int) + k + 1) with
        | some tm, some tp =>
          if abs tm < abs tp then some ((abs tp).toNat, false)
          else some ((abs tm).toNat + 1, true)
        | _, _ => none) = some (x0, vert) ∧
      k ≤ (x0 : Int) ∧
      ExtReach a b x0 (((x0 : Int) - k).toNat) (d0 + 1) ∧
      (∀ p q : Nat, (p : Int) - (q : Int) = k →
        ((∃ p0, p = p0 + 1 ∧ p0 < a.length ∧ GridReach a b p0 q d0) ∨
         (∃ q0, q = q0 + 1 ∧ q0 < b.length ∧ GridReach a b p q0 d0)) → p ≤ x0) := by
    by_cases hk1 : k = -((d0 + 1 : Nat) : Int)
    · have hslot := hprev (k + 1) ⟨0, by omega, by omega⟩
      obtain ⟨s, sx, hg, habs, hks, hreach, hdom⟩ := ext_ins_of_slot hslot
      refine ⟨sx, false, ?_, hks, hreach, ?_⟩
      · rw [if_pos hk1, show (offset : Int) + k + 1 = (offset : Int) + (k + 1) by ring, hg]
        show some ((abs s).toNat, false) = some (sx, false)
        rw [habs, Int.toNat_natCast]
      · intro p q hpq hsrc
        rcases hsrc with ⟨p0, hp, hp0n, hgr⟩ | ⟨q0, hq, hq0m, hgr⟩
        · exfalso
          have hb := hgr.diag_bound
          omega
        · exact hdom p q0 (by omega) hgr
    · by_cases hk2 : k = ((d0 + 1 : Nat) : Int)
      · have hslot := hprev (k - 1) ⟨d0, by omega, by omega⟩
        obtain ⟨s, sx, hg, habs, hks, hreach, hdom⟩ := ext_del_of_slot hslot
        refine ⟨sx + 1, true, ?_, hks, hreach, ?_⟩
        · rw [if_neg hk1, if_pos hk2,
            show (offset : Int) + k - 1 = (offset : Int) + (k - 1) by ring, hg]
          show some ((abs s).toNat + 1, true) = some (sx + 1, true)
          rw [habs, Int.toNat_natCast]
        · intro p q hpq hsrc
          rcases hsrc with ⟨p0, hp, hp0n, hgr⟩ | ⟨q0, hq, hq0m, hgr⟩
          · have := hdom p0 q (by omega) hgr
            omega
          · exfalso
            have hb := hgr.diag_bound
            omega
      · have htlo : 1 ≤ t := by omega
        have hthi : (t : Int) ≤ (d0 : Int) := by omega
        have hslotm := hprev (k - 1) ⟨t - 1, by omega, by omega⟩
        have hslotp := hprev (k + 1) ⟨t, by omega, by omega⟩
        obtain ⟨sm, sxm, hgm, habsm, hksm, hreachm, hdomm⟩ := ext_del_of_slot hslotm
        obtain ⟨sp, sxp, hgp, habsp, hksp, hreachp, hdomp⟩ := ext_ins_of_slot hslotp
        by_cases hcmp : abs sm < abs sp
        · refine ⟨sxp, false, ?_, hksp, hreachp, ?_⟩
          · rw [if_neg hk1, if_neg hk2,
              show (offset : Int) + k - 1 = (offset : Int) + (k - 1) by ring, hgm,
              show (offset : Int) + k + 1 = (offset : Int) + (k + 1) by ring, hgp]
            show (if abs sm < abs sp then some ((abs sp).toNat, false)
              else some ((abs sm).toNat + 1, true)) = some (sxp, false)
            rw [if_pos hcmp, habsp, Int.toNat_natCast]
          · intro p q hpq hsrc
            rcases hsrc with ⟨p0, hp, hp0n, hgr⟩ | ⟨q0, hq, hq0m, hgr⟩
            · have h1 := hdomm p0 q (by omega) hgr
              have h2 : (sxm : Int) < (sxp : Int) := by rw [← habsm, ← habsp]; exact hcmp
              omega
            · exact hdomp p q0 (by omega) hgr
        · refine ⟨sxm + 1, true, ?_, hksm, hreachm, ?_⟩
          · rw [if_neg hk1, if_neg hk2,
              show (offset : Int) + k - 1 = (offset : Int) + (k - 1) by ring, hgm,
              show (offset : Int) + k + 1 = (offset : Int) + (k + 1) by ring, hgp]
            show (if abs sm < abs sp then some ((abs sp).toNat, false)
              else some ((abs sm).toNat + 1, true)) = some (sxm + 1, true)
            rw [if_neg hcmp, habsm, Int.toNat_natCast]
          · intro p q hpq hsrc
            rcases hsrc with ⟨p0, hp, hp0n, hgr⟩ | ⟨q0, hq, hq0m, hgr⟩
            · have := hdomm p0 q (by omega) hgr
              omega
            · have h1 := hdomp p q0 (by omega) hgr
              have h2 : (sxp : Int) ≤ (sxm : Int) := by rw [← habsm, ← habsp]; omega
              omega
  obtain ⟨x0, vert, hreads, hx0k, hx0reach, hx0dom⟩ := main
  obtain ⟨x, hsnake, hx0x, hkx⟩ := snake_some a b a.length x0 k hx0k
  have hxreach := snake_reach a b a.length x0 k (d0 + 1) x hx0k hx0reach hsnake
  have hidx0 : (0 : Int) ≤ (offset : Int) + k := by omega
  have hidx1 : (offset : Int) + k < (v.length : Int) := by rw [hlen]; push_cast; omega
  have hset := @setV_some v ((offset : Int) + k)
    (if vert then -(x : Int) else (x : Int)) hidx0 hidx1
  refine ⟨x, vert,
    v.set ((offset : Int) + k).toNat (if vert then -(x : Int) else (x : Int)),
    hkx, hxreach, ?_, by rw [List.length_set]; exact hlen,
    fun j hj => getV_set_ne v _ j _ hidx0 hj,
    getV_set_self hidx0 hidx1,
    fun count => kLoop_step_eq a b offset (d0 + 1) count k v x0 vert x _ hreads hsnake hset⟩
  intro xq yq hgr hdiag
  obtain ⟨p, q, len, hxq, hyq, run, rest⟩ := hgr.decomp
  rcases rest with ⟨h0, h1, h2⟩ | ⟨d0', hd', hsrc⟩
  · omega
  · have hd0 : d0' = d0 := by omega
    subst hd0
    have hpq : (p : Int) - (q : Int) = k := by omega
    have hp := hx0dom p q hpq hsrc
    have hxqn : xq ≤ a.length := hgr.le_len.1
    by_cases hcase : p + len ≤ x0
    · omega
    · have := snake_slide a b a.length x0 k p q len x run hpq hp (by omega) (by omega) hsnake
      omega

/-- A slot specification only depends on the slot's own entry. -/
theorem SlotSpec_frame {a b : List Str} {offset d : Nat} {v v' : List Int} {kk : Int}
    (h : SlotSpec a b offset d v kk)
    (hg : getV v' ((offset : Int) + kk) = getV v ((offset : Int) + kk)) :
    SlotSpec a b offset d v' kk := by
  obtain ⟨s, x, hgv, rest⟩ := h
  exact ⟨s, x, hg.trans hgv, rest⟩

/-- Along an in-grid path the diagonal index and the move count have equal
parity. -/
theorem GridReach.parity :
    ∀ {a b : List Str} {x y d : Nat}, GridReach a b x y d →
      ∃ j : Int, (x : Int) - (y : Int) + (d : Int) = 2 * j := by
  intro a b x y d h
  induction h with
  | base => exact ⟨0, by simp⟩
  | del h hx ih => obtain ⟨j, hj⟩ := ih; exact ⟨j + 1, by push_cast at hj ⊢; omega⟩
  | ins h hy ih => obtain ⟨j, hj⟩ := ih; exact ⟨j, by push_cast at hj ⊢; omega⟩
  | diag h hx hy he ih => obtain ⟨j, hj⟩ := ih; exact ⟨j, by push_cast at hj ⊢; omega⟩

/-- An in-grid path cannot use more non-diagonal moves than the perimeter. -/
theorem GridReach.d_le :
    ∀ {a b : List Str} {x y d : Nat}, GridReach a b x y d → d ≤ x + y := by
  intro a b x y d h
  induction h with
  | base => omega
  | del h hx ih => omega
  | ins h hy ih => omega
  | diag h hx hy he ih => omega

/-- A full iteration `d0 + 1 < D` of the inner loop never fires and
re-establishes the frontier invariant. -/
theorem kLoop_inv (a b : List Str) (offset d0 D : Nat)
    (hmin : ∀ d', EditScript a b d' → D ≤ d')
    (hd : d0 + 1 < D)
    (hoffD : (D : Int) ≤ (offset : Int)) :
    ∀ (count : Nat) (k : Int) (v : List Int),
      v.length = 2 * offset →
      k = -(d0 : Int) - 1 + 2 * ((d0 + 2 - count : Nat) : Int) →
      count ≤ d0 + 2 →
      (∀ kk : Int,
        (∃ t : Nat, (t : Int) ≤ (d0 : Int) ∧ kk = -(d0 : Int) + 2 * (t : Int)) →
        SlotSpec a b offset d0 v kk) →
      (∀ kk : Int,
        (∃ t : Nat, (t : Int) < ((d0 + 2 - count : Nat) : Int) ∧
          kk = -(d0 : Int) - 1 + 2 * (t : Int)) →
        SlotSpec a b offset (d0 + 1) v kk) →
      ∃ v', kLoop a b offset (d0 + 1) count k v = some (Sum.inr v') ∧
        v'.length = 2 * offset ∧
        ∀ kk : Int,
          (∃ t : Nat, (t : Int) ≤ (d0 : Int) + 1 ∧ kk = -(d0 : Int) - 1 + 2 * (t : Int)) →
          SlotSpec a b offset (d0 + 1) v' kk := by
  intro count
  induction count with
  | zero =>
    intro k v hlen hk hcount hprev hnew
    refine ⟨v, rfl, hlen, ?_⟩
    intro kk hkk
    obtain ⟨t, htle, htk⟩ := hkk
    exact hnew kk ⟨t, by omega, htk⟩
  | succ count ih =>
    intro k v hlen hk hcount hprev hnew
    have hkhi : k ≤ (d0 : Int) + 1 := by omega
    have hklo : -(d0 : Int) - 1 ≤ k := by omega
    obtain ⟨x, vert, v', hkx, hreach, hdom, hlen', hframe, hstored, heq⟩ :=
      kStep a b offset d0 v k hlen (by omega) (by omega) hklo hkhi
        ⟨d0 + 1 - count, by omega⟩ hprev
    rw [heq count]
    have hnofire : ¬(a.length ≤ x ∧ (b.length : Int) ≤ (x : Int) - k) := by
      rintro ⟨hxn, hym⟩
      obtain ⟨d', s, hds⟩ := ExtReach.corner hreach hxn (by omega)
      have := hmin d' s
      omega
    rw [if_neg hnofire]
    refine ih (k + 2) v' hlen' (by omega) (by omega) ?_ ?_
    · intro kk hkk
      refine SlotSpec_frame (hprev kk hkk) (hframe _ ?_)
      obtain ⟨t', ht'1, ht'2⟩ := hkk
      omega
    · intro kk hkk
      obtain ⟨t', ht'lt, ht'eq⟩ := hkk
      by_cases hkkk : kk = k
      · subst hkkk
        exact ⟨if vert then -(x : Int) else (x : Int), x, hstored,
          abs_ite_encode vert x, hkx, hreach, hdom⟩
      · refine SlotSpec_frame (hnew kk ⟨t', by omega, ht'eq⟩) (hframe _ ?_)
        omega

/-- Iteration `D` of the inner loop fires exactly at the corner `(n, m)` on
diagonal `n - m`. -/
theorem kLoop_fire (a b : List Str) (offset d0 D : Nat)
    (hD : D = d0 + 1)
    (hmin : ∀ d', EditScript a b d' → D ≤ d')
    (hcorner : GridReach a b a.length b.length D)
    (hoffD : (D : Int) ≤ (offset : Int))
    (hoffn : (a.length : Int) ≤ (offset : Int))
    (hm1 : 1 ≤ b.length) :
    ∀ (count : Nat) (k : Int) (v : List Int),
      v.length = 2 * offset →
      k = -(d0 : Int) - 1 + 2 * ((d0 + 2 - count : Nat) : Int) →
      count ≤ d0 + 2 →
      k ≤ (a.length : Int) - (b.length : Int) →
      (∀ kk : Int,
        (∃ t : Nat, (t : Int) ≤ (d0 : Int) ∧ kk = -(d0 : Int) + 2 * (t : Int)) →
        SlotSpec a b offset d0 v kk) →
      ∃ v', kLoop a b offset (d0 + 1) count k v =
        some (Sum.inl ((a.length : Int) - (b.length : Int), a.length,
          (b.length : Int), v')) := by
  intro count
  induction count with
  | zero =>
    intro k v hlen hk hcount hknm hprev
    exfalso
    have hb := hcorner.diag_bound
    omega
  | succ count ih =>
    intro k v hlen hk hcount hknm hprev
    have hc' : GridReach a b a.length b.length (d0 + 1) := hD ▸ hcorner
    have hkhi : k ≤ (d0 : Int) + 1 := by
      have hb := hcorner.diag_bound
      omega
    have hklo : -(d0 : Int) - 1 ≤ k := by omega
    have hkw : k < (offset : Int) := by omega
    obtain ⟨x, vert, v', hkx, hreach, hdom, hlen', hframe, hstored, heq⟩ :=
      kStep a b offset d0 v k hlen (by omega) hkw hklo hkhi
        ⟨d0 + 1 - count, by omega⟩ hprev
    rw [heq count]
    by_cases hfire : a.length ≤ x ∧ (b.length : Int) ≤ (x : Int) - k
    · obtain ⟨d', s, hds⟩ := ExtReach.corner hreach hfire.1 (by omega)
      have hDd := hmin d' s
      have hfire2 := hfire.2
      have hxn : x = a.length := by omega
      have h1 : (x : Int) - k = (b.length : Int) := by omega
      have hkeq : k = (a.length : Int) - (b.length : Int) := by omega
      refine ⟨v', ?_⟩
      rw [if_pos hfire, h1, hkeq, hxn]
    · have hklt : k < (a.length : Int) - (b.length : Int) := by
        rcases lt_or_eq_of_le hknm with hlt | heqk
        · exact hlt
        · exfalso
          apply hfire
          have hxn := hdom a.length b.length hc' heqk.symm
          constructor
          · exact hxn
          · omega
      rw [if_neg hfire]
      obtain ⟨jj, hjj⟩ := hcorner.parity
      refine ih (k + 2) v' hlen' (by omega) (by omega) (by omega) ?_
      intro kk hkk
      refine SlotSpec_frame (hprev kk hkk) (hframe _ ?_)
      obtain ⟨t', ht'1, ht'2⟩ := hkk
      omega

/-- Iteration 0 of the inner loop: the single diagonal `k = 0` is seeded
from the zero array, slides from the origin, and either fires or stores the
first frontier value. -/
theorem kLoop_iter0 (a b : List Str) (offset : Nat) (hoff2 : 2 ≤ offset) :
    ∃ (r : Nat) (v' : List Int),
      ExtReach a b r (((r : Int) - 0).toNat) 0 ∧
      (∀ xq yq : Nat, GridReach a b xq yq 0 → (xq : Int) - (yq : Int) = 0 → xq ≤ r) ∧
      v'.length = 2 * offset ∧
      getV v' ((offset : Int) + 0) = some ((r : Int)) ∧
      kLoop a b offset 0 1 0 (List.replicate (2 * offset) (0 : Int)) =
        if a.length ≤ r ∧ (b.length : Int) ≤ (r : Int) - 0 then
          some (Sum.inl (0, r, (r : Int) - 0, v'))
        else some (Sum.inr v') := by
  have hget : getV (List.replicate (2 * offset) (0 : Int)) ((offset : Int) + 0 + 1) =
      some 0 := by
    rw [getV, if_pos ⟨by omega, by rw [List.length_replicate]; push_cast; omega⟩]
    congr 1
    rw [List.getD_eq_getElem _ _ (by rw [List.length_replicate]; omega)]
    apply List.getElem_replicate
  obtain ⟨r, hs, h0r, h0kr⟩ := snake_some a b a.length 0 0 (by omega)
  have hreach0 : ExtReach a b 0 ((((0 : Nat) : Int) - 0).toNat) 0 := ExtReach.base
  have hreach := snake_reach a b a.length 0 0 0 r (by omega) hreach0 hs
  have hdom : ∀ xq yq : Nat, GridReach a b xq yq 0 → (xq : Int) - (yq : Int) = 0 →
      xq ≤ r := by
    intro xq yq hgr hd
    obtain ⟨p, q, len, hxq, hyq, run, rest⟩ := hgr.decomp
    rcases rest with ⟨h00, hp0, hq0⟩ | ⟨d0', hd', hsrc⟩
    · subst hp0
      subst hq0
      have hlen_le : len ≤ a.length := by
        rcases Nat.eq_zero_or_pos len with h | h
        · omega
        · have := (run (len - 1) (by omega)).1
          omega
      have := snake_slide a b a.length 0 0 0 0 len r run (by norm_num) (le_rfl)
        (by omega) (by omega) hs
      omega
    · omega
  have hidx0 : (0 : Int) ≤ (offset : Int) + 0 := by omega
  have hidx1 : (offset : Int) + 0 < ((List.replicate (2 * offset) (0 : Int)).length : Int) := by
    rw [List.length_replicate]; push_cast; omega
  have hset := @setV_some (List.replicate (2 * offset) (0 : Int)) ((offset : Int) + 0)
    (if false then -(r : Int) else (r : Int)) hidx0 hidx1
  have heq := kLoop_step_eq a b offset 0 0 0 (List.replicate (2 * offset) (0 : Int))
    0 false r _
    (by
      rw [if_pos (show (0 : Int) = -((0 : Nat) : Int) by norm_num), hget]
      rfl)
    hs hset
  refine ⟨r, (List.replicate (2 * offset) (0 : Int)).set ((offset : Int) + 0).toNat
      (if false then -(r : Int) else (r : Int)),
    hreach, hdom, by rw [List.length_set, List.length_replicate], ?_, ?_⟩
  · exact getV_set_self hidx0 hidx1
  · rw [heq]
    by_cases hf : a.length ≤ r ∧ (b.length : Int) ≤ (r : Int) - 0
    · rw [if_pos hf, if_pos hf]
    · rw [if_neg hf, if_neg hf]
      rfl

/-- One unrolling of the outer loop. -/
theorem dLoop_succ_eq (a b : List Str) (offset fuel d : Nat) (v : List Int)
    (vs : List (List Int)) :
    dLoop a b offset (fuel + 1) d v vs =
      match kLoop a b offset d (d + 1) (-(d : Int)) v with
      | none => none
      | some (Sum.inl (k, x, y, v')) => some ⟨d, k, x, y, vs ++ [v']⟩
      | some (Sum.inr v') => dLoop a b offset fuel (d + 1) v' (vs ++ [v']) := rfl

/-- Master run of the outer loop from iteration `cur0 + 1` with a valid
frontier for iteration `cur0`: the search fires at iteration `D` exactly at
the corner, on diagonal `n - m`, having retained one snapshot per
iteration. -/
theorem dLoop_master (a b : List Str) (offset D : Nat)
    (hmin : ∀ d', EditScript a b d' → D ≤ d')
    (hcorner : GridReach a b a.length b.length D)
    (hm1 : 1 ≤ b.length)
    (hoffnm : a.length + b.length ≤ offset) :
    ∀ (fuel cur0 : Nat) (v : List Int) (vs : List (List Int)),
      fuel + (cur0 + 1) = offset + 1 →
      cur0 + 1 ≤ D →
      v.length = 2 * offset →
      (∀ kk : Int,
        (∃ t : Nat, (t : Int) ≤ (cur0 : Int) ∧ kk = -(cur0 : Int) + 2 * (t : Int)) →
        SlotSpec a b offset cur0 v kk) →
      ∃ v', dLoop a b offset fuel (cur0 + 1) v vs =
        some ⟨D, (a.length : Int) - (b.length : Int), a.length, (b.length : Int),
          vs ++ v'⟩ ∧ v'.length = D - cur0 := by
  have hDle : D ≤ a.length + b.length := hcorner.d_le
  intro fuel
  induction fuel with
  | zero =>
    intro cur0 v vs hlink hcur hlen hprev
    exfalso
    omega
  | succ f ih =>
    intro cur0 v vs hlink hcur hlen hprev
    rw [dLoop_succ_eq]
    by_cases hDcur : cur0 + 1 = D
    · obtain ⟨v', hkl⟩ := kLoop_fire a b offset cur0 D hDcur.symm hmin hcorner
        (by omega) (by omega) hm1 (cur0 + 2) (-(((cur0 + 1) : Nat) : Int)) v hlen
        (by push_cast; omega) (by omega)
        (by have hb := hcorner.diag_bound; push_cast at hb ⊢; omega) hprev
      rw [hkl]
      refine ⟨[v'], ?_, by simp only [List.length_singleton]; omega⟩
      rw [hDcur]
    · obtain ⟨v', hkl, hlen', hinv'⟩ := kLoop_inv a b offset cur0 D hmin (by omega)
        (by omega) (cur0 + 2) (-(((cur0 + 1) : Nat) : Int)) v hlen
        (by push_cast; omega) (by omega) hprev
        (by
          intro kk hkk
          obtain ⟨t, ht1, ht2⟩ := hkk
          exfalso
          omega)
      rw [hkl]
      obtain ⟨vv, hd, hvv⟩ := ih (cur0 + 1) v' (vs ++ [v']) (by omega) (by omega) hlen'
        (by
          intro kk hkk
          obtain ⟨t, ht1, ht2⟩ := hkk
          exact hinv' kk ⟨t, by omega, by omega⟩)
      refine ⟨[v'] ++ vv, ?_,
        by simp only [List.length_append, List.length_singleton]; omega⟩
      show dLoop a b offset f (cur0 + 1 + 1) v' (vs ++ [v']) =
        some ⟨D, (a.length : Int) - (b.length : Int), a.length, (b.length : Int),
          vs ++ ([v'] ++ vv)⟩
      rw [hd, ← List.append_assoc]

theorem length_insertSorted (e : edit) :
    ∀ l : List edit, (insertSorted e l).length = l.length + 1 := by
  intro l
  induction l with
  | nil => rfl
  | cons y ys ih =>
    by_cases h : e.Offset ≤ y.Offset
    · simp [insertSorted, h]
    · simp only [insertSorted, if_neg h, List.length_cons, ih]

/-- The backtrace emits exactly one edit per retained snapshot beyond the
first. -/
theorem constructLoop_count (f : String) (a b : List Str) (offset : Nat) :
    ∀ (vsRev : List (List Int)) (k : Int) (acc es : editSet),
      constructLoop f a b offset k vsRev acc = some es →
      (es.lookup f).length = (acc.lookup f).length + (vsRev.length - 1) := by
  intro vsRev
  induction vsRev with
  | nil =>
    intro k acc es h
    simp only [constructLoop, Option.some.injEq] at h
    rw [← h]
    simp
  | cons v rest ih =>
    cases rest with
    | nil =>
      intro k acc es h
      simp only [constructLoop, Option.some.injEq] at h
      rw [← h]
      simp
    | cons v2 rest2 =>
      intro k acc es h
      rw [constructLoop] at h
      cases hvk : getV v (offset + k) with
      | none => rw [hvk] at h; simp at h
      | some v_k =>
        rw [hvk] at h
        simp only [Option.bind_eq_bind, Option.some_bind] at h
        cases hnvk : getV v2 (offset + (if v_k > 0 then k + 1 else k - 1)) with
        | none => rw [hnvk] at h; simp at h
        | some next_v_k =>
          rw [hnvk] at h
          simp only [Option.some_bind] at h
          by_cases hpos : v_k > 0
          · simp only [if_pos hpos] at h
            cases hoff : offsetOfString (abs v_k - (abs v_k - k - (abs next_v_k -
                (k + 1)) - 1)) a with
            | none => rw [hoff] at h; simp at h
            | some off =>
              rw [hoff] at h
              simp only [Option.some_bind] at h
              by_cases hcb : 0 ≤ abs v_k - k - (abs v_k - k - (abs next_v_k - (k + 1)) - 1) - 1 ∧
                  abs v_k - k - (abs v_k - k - (abs next_v_k - (k + 1)) - 1) - 1 < (b.length : Int)
              · rw [if_pos hcb] at h
                have hcnt := ih _ _ _ h
                rw [lookup_Add, length_insertSorted] at hcnt
                simp only [List.length_cons] at hcnt ⊢
                omega
              · rw [if_neg hcb] at h; simp at h
          · simp only [if_neg hpos] at h
            cases hoff : offsetOfString (abs v_k - (abs v_k - abs next_v_k - 1) - 1) a with
            | none => rw [hoff] at h; simp at h
            | some off =>
              rw [hoff] at h
              simp only [Option.some_bind] at h
              by_cases hdb : 0 ≤ abs v_k - (abs v_k - abs next_v_k - 1) - 1 ∧
                  abs v_k - (abs v_k - abs next_v_k - 1) - 1 < (a.length : Int)
              · rw [if_pos hdb] at h
                have hcnt := ih _ _ _ h
                rw [lookup_Add, length_insertSorted] at hcnt
                simp only [List.length_cons] at hcnt ⊢
                omega
              · rw [if_neg hdb] at h; simp at h

/-- Full run of the forward search exactly as `Diff` invokes it on nonempty
inputs: it terminates (no panic), fires at the corner `(n, m)` on diagonal
`n - m`, at the first `d` whose extended frontier reaches the corner —
namely the reference edit distance `n + m - 2·lcs a b` — and retains
`d + 1` snapshots. -/
theorem dLoop_run (a b : List Str) (hn : 1 ≤ a.length) (hm : 1 ≤ b.length) :
    ∃ res : FwdResult,
      dLoop a b (b.length + a.length) (b.length + a.length + 1) 0
        ((List.replicate (2 * (b.length + a.length)) (0 : Int)).set
          (b.length + a.length + 1) 0) [] = some res ∧
      res.x = a.length ∧ res.y = (b.length : Int) ∧
      res.k = (a.length : Int) - (b.length : Int) ∧
      res.d + 2 * lcs a b = a.length + b.length ∧
      (∀ (d' x y : Nat), ExtReach a b x y d' → a.length ≤ x → b.length ≤ y →
        res.d ≤ d') ∧
      res.vs.length = res.d + 1 := by
  obtain ⟨D, hscript, hDeq⟩ := lcs_script_exists (a.length + b.length) a b le_rfl
  have hmin : ∀ d', EditScript a b d' → D ≤ d' := by
    intro d' s
    have := s.lcs_lower
    omega
  have hcorner := hscript.toGridCorner
  have hminext : ∀ (d' x y : Nat), ExtReach a b x y d' → a.length ≤ x →
      b.length ≤ y → D ≤ d' := by
    intro d' x y hext hx hy
    obtain ⟨d'', s'', h2⟩ := hext.corner hx hy
    have := hmin d'' s''
    omega
  have hoff2 : 2 ≤ b.length + a.length := by omega
  obtain ⟨r, v', hreach, hdom, hlen', hget', heq⟩ :=
    kLoop_iter0 a b (b.length + a.length) hoff2
  rcases Nat.eq_zero_or_pos D with hD0 | hD1
  · have hab : a = b := EditScript_zero hscript hD0
    have hnm : a.length = b.length := by rw [hab]
    have hc0 : GridReach a b a.length b.length 0 := hD0 ▸ hcorner
    have hrge : a.length ≤ r := hdom a.length b.length hc0 (by omega)
    have hfc : a.length ≤ r ∧ (b.length : Int) ≤ (r : Int) - 0 := ⟨hrge, by omega⟩
    obtain ⟨d', s', hds⟩ := ExtReach.corner hreach hfc.1 (by omega)
    have hr_eq : r = a.length := by
      have := hmin d' s'
      omega
    refine ⟨⟨0, 0, r, (r : Int) - 0, [] ++ [v']⟩, ?_, hr_eq, ?_, ?_, ?_, ?_, by rfl⟩
    · rw [List.set_replicate_self, dLoop_succ_eq]
      have h3 : kLoop a b (b.length + a.length) 0 1 0
          (List.replicate (2 * (b.length + a.length)) (0 : Int)) =
          some (Sum.inl (0, r, (r : Int) - 0, v')) := by
        rw [heq, if_pos hfc]
      have heq2 : kLoop a b (b.length + a.length) 0 (0 + 1) (-((0 : Nat) : Int))
          (List.replicate (2 * (b.length + a.length)) (0 : Int)) =
          some (Sum.inl (0, r, (r : Int) - 0, v')) := h3
      rw [heq2]
    · show (r : Int) - 0 = (b.length : Int)
      omega
    · show (0 : Int) = (a.length : Int) - (b.length : Int)
      omega
    · show 0 + 2 * lcs a b = a.length + b.length
      omega
    · intro d' x y hext hx hy
      exact Nat.zero_le _
  · have hnof : ¬(a.length ≤ r ∧ (b.length : Int) ≤ (r : Int) - 0) := by
      rintro ⟨hx, hy⟩
      obtain ⟨d', s', hds⟩ := ExtReach.corner hreach hx (by omega)
      have := hmin d' s'
      omega
    have hprev0 : ∀ kk : Int,
        (∃ t : Nat, (t : Int) ≤ ((0 : Nat) : Int) ∧
          kk = -((0 : Nat) : Int) + 2 * (t : Int)) →
        SlotSpec a b (b.length + a.length) 0 v' kk := by
      intro kk hkk
      obtain ⟨t, ht1, ht2⟩ := hkk
      have hkk0 : kk = 0 := by omega
      subst hkk0
      exact ⟨(r : Int), r, hget', abs_ite_encode false r, by omega, hreach, hdom⟩
    obtain ⟨vv, hdl, hvvlen⟩ := dLoop_master a b (b.length + a.length) D hmin hcorner hm
      (by omega) (b.length + a.length) 0 v' ([] ++ [v']) (by omega) (by omega) hlen' hprev0
    refine ⟨⟨D, (a.length : Int) - (b.length : Int), a.length, (b.length : Int),
      ([] ++ [v']) ++ vv⟩, ?_, rfl, rfl, rfl,
      by show D + 2 * lcs a b = a.length + b.length; omega, hminext, ?_⟩
    · rw [List.set_replicate_self, dLoop_succ_eq]
      have h3 : kLoop a b (b.length + a.length) 0 1 0
          (List.replicate (2 * (b.length + a.length)) (0 : Int)) =
          some (Sum.inr v') := by
        rw [heq, if_neg hnof]
      have heq2 : kLoop a b (b.length + a.length) 0 (0 + 1) (-((0 : Nat) : Int))
          (List.replicate (2 * (b.length + a.length)) (0 : Int)) =
          some (Sum.inr v') := h3
      rw [heq2]
      show dLoop a b (b.length + a.length) (b.length + a.length) (0 + 1) v'
          ([] ++ [v']) =
        some ⟨D, (a.length : Int) - (b.length : Int), a.length, (b.length : Int),
          ([] ++ [v']) ++ vv⟩
      rw [hdl]
    · show (([] ++ [v']) ++ vv).length = D + 1
      simp only [List.length_append, List.length_singleton, List.length_nil]
      omega

end Godoctor

/-! ### Claim theorems -/

namespace Godoctor

/-- C1: the round-trip property fails on the code.  For `a = ["x"]`,
`b = ["y","z","x"]` the backtrace misreads the sign-packed frontier value
`0` (a horizontal move recorded as `+0` is indistinguishable from a
vertical one), emits a deletion instead of the insertion of `"y"`, and the
resulting EditSet does not transform `join(a) = "x"` into
`join(b) = "yzx"` (its two edits overlap, so application fails). -/
theorem C1_roundtrip_violated :
    Diff "f" [['x']] [['y'], ['z'], ['x']] =
      some ⟨[("f", [⟨0, 1, []⟩, ⟨0, 0, ['z']⟩])]⟩ ∧
    (Diff "f" [['x']] [['y'], ['z'], ['x']]).bind
        (fun es => es.ApplyToString "f" (strJoin [['x']])) ≠
      some (strJoin [['y'], ['z'], ['x']]) := by decide

/-- C3: on the concrete scenario the EditSet is as claimed (one deletion of
`"bar\n"`, one insertion of `"qux\n"`), but the rendered patch is not: the
code derives the header line counts from `strings.SplitAfter`, which has a
trailing empty element, so it renders `@@ -1,4 +1,4 @@` instead of
`@@ -1,3 +1,3 @@` and appends a stray `" "` context line for that empty
element. -/
theorem C3_concrete_scenario :
    Diff "f" ["foo\n".toList, "bar\n".toList, "baz\n".toList]
        ["foo\n".toList, "qux\n".toList, "baz\n".toList] =
      some ⟨[("f", [⟨4, 4, []⟩, ⟨8, 0, "qux\n".toList⟩])]⟩ ∧
    (createPatch ⟨[("f", [⟨4, 4, []⟩, ⟨8, 0, "qux\n".toList⟩])]⟩ "f"
        (strJoin ["foo\n".toList, "bar\n".toList, "baz\n".toList])).Write =
      some "--- f\n+++ f\n@@ -1,4 +1,4 @@\n foo\n-bar\n+qux\n baz\n ".toList ∧
    "--- f\n+++ f\n@@ -1,4 +1,4 @@\n foo\n-bar\n+qux\n baz\n ".toList ≠
      "--- f\n+++ f\n@@ -1,3 +1,3 @@\n foo\n-bar\n+qux\n baz\n".toList := by decide

/-- C4: `Patch.Add` always returns the read-only error and leaves the patch
(and hence its hunks and rendered output) unchanged. -/
theorem C4_rendered_patch_add_fails (p : Patch) (key : String) (ol : OffsetLength) (repl : Str) :
    (p.Add key ol repl).2 = GoResult.err "Add cannot be called on Patch (read-only)" ∧
    (p.Add key ol repl).1 = p ∧
    (p.Add key ol repl).1.hunks = p.hunks ∧
    (p.Add key ol repl).1.Write = p.Write :=
  ⟨rfl, rfl, rfl, rfl⟩

/-- C5 counterexample: on a concrete Patch, `ApplyTo` does not return an
error at all — it panics with "Not implemented" — so the claim that the
unsupported operations "signal 'not implemented' as an explicit returned
error and never crash the process" is false as stated. -/
theorem C5_counterexample :
    (Patch.ApplyTo ⟨"f", []⟩ "f" []).isErr = false ∧
    Patch.ApplyTo ⟨"f", []⟩ "f" [] = GoResult.panicked "Not implemented" := by decide

/-- C5 amended: `ApplyTo`, `ApplyToFile` and `ApplyToString` each signal
"Not implemented" via a runtime panic (crashing the process unless
recovered), not via a returned error. -/
theorem C5_not_implemented_panics (p : Patch) (key fname : String) (s : Str) :
    p.ApplyTo key s = GoResult.panicked "Not implemented" ∧
    p.ApplyToFile fname = GoResult.panicked "Not implemented" ∧
    p.ApplyToString key s = GoResult.panicked "Not implemented" :=
  ⟨rfl, rfl, rfl⟩

/-- C7: degenerate inputs.  `Diff` on two empty sequences yields the empty
EditSet; on an empty `a` it yields exactly one insertion at offset 0 of
`join(b)`; on an empty `b` it yields exactly one deletion covering all of
`join(a)`. -/
theorem C7_degenerate_inputs (filename : String) (a b : List Str)
    (ha : a ≠ []) (hb : b ≠ []) :
    Diff filename [] [] = some ⟨[]⟩ ∧
    Diff filename [] b = some ⟨[(filename, [⟨0, 0, strJoin b⟩])]⟩ ∧
    Diff filename a [] = some ⟨[(filename, [⟨0, (strJoin a).length, []⟩])]⟩ := by
  have hbl : b.length ≠ 0 := fun h => hb (List.length_eq_zero.mp h)
  have hal : a.length ≠ 0 := fun h => ha (List.length_eq_zero.mp h)
  refine ⟨?_, ?_, ?_⟩
  · simp [Diff, NewEditSet]
  · simp [Diff, hbl, NewEditSet, editSet.Add, updateAssoc]
  · simp [Diff, hal, NewEditSet, editSet.Add, updateAssoc]

/-- Witness for C7 at concrete nonempty sequences. -/
theorem C7_degenerate_inputs_witness :
    Diff "f" [] [] = some ⟨[]⟩ ∧
    Diff "f" [] [['y']] = some ⟨[("f", [⟨0, 0, strJoin [['y']]⟩])]⟩ ∧
    Diff "f" [['x']] [] = some ⟨[("f", [⟨0, (strJoin [['x']]).length, []⟩])]⟩ :=
  C7_degenerate_inputs "f" [['x']] [['y']] (by simp) (by simp)

/-- C2 counterexample: for `a = []`, `b = ["A","A"]` the code returns a
single merged insertion edit, but `|a| + |b| - 2·LCS(a,b) = 2`, so the
edit count does not equal the reference formula for every pair of
sequences. -/
theorem C2_minimality_counterexample :
    Diff "f" [] [['A'], ['A']] = some ⟨[("f", [⟨0, 0, ['A', 'A']⟩])]⟩ ∧
    (Diff "f" [] [['A'], ['A']]).map (fun es => (es.lookup "f").length) = some 1 ∧
    ([] : List Str).length + [['A'], ['A']].length - 2 * lcs ([] : List Str) [['A'], ['A']] = 2 := by
  decide

/-- C8 counterexample: for `a = []`, `b = ["A","A"]` the single returned
edit is an insertion whose replacement `"AA"` is the concatenation of the
two units of `b`, not "exactly one whole unit of b". -/
theorem C8_shape_counterexample :
    Diff "f" [] [['A'], ['A']] = some ⟨[("f", [⟨0, 0, ['A', 'A']⟩])]⟩ ∧
    (⟨0, 0, ['A', 'A']⟩ : edit).Length = 0 ∧
    (⟨0, 0, ['A', 'A']⟩ : edit).replacement ∉ [['A'], ['A']] := by decide

/-- C8 amended: when both `a` and `b` are nonempty and `Diff` completes
without panicking, every edit in the returned EditSet is either an
insertion of exactly one whole unit of `b` or a deletion of exactly one
whole unit of `a`, every offset is a unit boundary of `a` in `join(a)`
(the start of a unit, or the end of the text for insertions after the last
unit), and the edits are in ascending offset order. -/
theorem C8_shape_amended (filename : String) (a b : List Str) (es : editSet)
    (ha : a ≠ []) (hb : b ≠ []) (h : Diff filename a b = some es) :
    (∀ e ∈ es.lookup filename, isUnitInsert a b e ∨ isUnitDelete a e) ∧
    (es.lookup filename).Pairwise (fun e1 e2 => e1.Offset ≤ e2.Offset) := by
  have hal : a.length ≠ 0 := fun h0 => ha (List.length_eq_zero.mp h0)
  have hbl : b.length ≠ 0 := fun h0 => hb (List.length_eq_zero.mp h0)
  unfold Diff at h
  simp only [hal, hbl, and_false, false_and, if_false, ite_false, if_neg] at h
  cases hdl : dLoop a b (b.length + a.length) (b.length + a.length + 1) 0
      ((List.replicate (2 * (b.length + a.length)) (0 : Int)).set
        (b.length + a.length + 1) 0) [] with
  | none => rw [hdl] at h; simp at h
  | some res =>
    rw [hdl] at h
    unfold constructEditSet at h
    refine constructLoop_shape filename a b _ _ _ _ _ h ?_ ?_
    · intro e he
      simp [NewEditSet, editSet.lookup, List.find?] at he
    · simp [NewEditSet, editSet.lookup, List.find?]

/-- Witness for C8 amended at `a = ["x"]`, `b = ["y"]`. -/
theorem C8_shape_amended_witness :
    (∀ e ∈ editSet.lookup ⟨[("f", [⟨0, 1, []⟩, ⟨1, 0, ['y']⟩])]⟩ "f",
      isUnitInsert [['x']] [['y']] e ∨ isUnitDelete [['x']] e) ∧
    (editSet.lookup ⟨[("f", [⟨0, 1, []⟩, ⟨1, 0, ['y']⟩])]⟩ "f").Pairwise
      (fun e1 e2 => e1.Offset ≤ e2.Offset) :=
  C8_shape_amended "f" [['x']] [['y']] _ (by simp) (by simp) (by decide)

/-- C6 counterexample: context size is `C = num_ctx_lines = 3`.  In a file
of twenty lines `"x\n"`, a pure insertion at the start of line 5 (offset 8,
1-based line 5) and a deletion of line 11 (offset 20) are separated by
exactly `2C - 1 = 5` untouched lines (lines 6–10), yet `createPatch`
produces two hunks, not one: for an insertion at the very start of a line
the trailing-context counter starts at 1, so the first hunk closes one
untouched line earlier than for any other kind of edit. -/
theorem C6_counterexample :
    (createPatch ⟨[("f", [⟨8, 0, ['N', '\n']⟩, ⟨20, 2, []⟩])]⟩ "f"
        (strJoin (List.replicate 20 ['x', '\n']))).hunks.length = 2 ∧
    2 * num_ctx_lines - 1 = 5 := by decide

/-- C6 amended: for a text of well-formed lines and an EditSet of two edits
`e1` (within line `i`) and `e2` (within line `j`), separated by
`g = j - i - 1` untouched lines, the hunk count of `createPatch` is
characterized by: two hunks exactly when `2C - c0 ≤ g`, where `c0 = 1` if
`e1` is a pure insertion at the very start of line `i` and `c0 = 0`
otherwise.  Consequently: `g ≥ 2C` always yields two hunks; `g = 2C - 1`
yields one hunk for every edit except a pure insertion at line start, which
(the correction the counterexample forces) already splits at `g = 2C-1`. -/
theorem C6_hunk_threshold_amended
    (lines : List Str) (i j : Nat) (e1 e2 : edit)
    (hg : ∀ l ∈ lines, goodLine l)
    (hij : i < j) (hj : j < lines.length)
    (h1a : offsetAt lines i ≤ e1.Offset)
    (h1b : e1.OffsetPastEnd < offsetAt lines (i + 1))
    (h2a : offsetAt lines j ≤ e2.Offset)
    (h2b : e2.OffsetPastEnd < offsetAt lines (j + 1)) :
    ((createPatch ⟨[("f", [e1, e2])]⟩ "f" (strJoin lines)).hunks.length =
      if 2 * num_ctx_lines -
          (if e1.Offset = offsetAt lines i ∧ e1.Length = 0 then 1 else 0) ≤ j - i - 1
      then 2 else 1) ∧
    (2 * num_ctx_lines ≤ j - i - 1 →
      (createPatch ⟨[("f", [e1, e2])]⟩ "f" (strJoin lines)).hunks.length = 2) ∧
    (j - i - 1 = 2 * num_ctx_lines - 1 →
      ¬(e1.Offset = offsetAt lines i ∧ e1.Length = 0) →
      (createPatch ⟨[("f", [e1, e2])]⟩ "f" (strJoin lines)).hunks.length = 1) ∧
    (j - i - 1 = 2 * num_ctx_lines - 1 →
      e1.Offset = offsetAt lines i ∧ e1.Length = 0 →
      (createPatch ⟨[("f", [e1, e2])]⟩ "f" (strJoin lines)).hunks.length = 2) := by
  have hi : i < lines.length := by omega
  obtain ⟨c0, hc0⟩ : ∃ c, (if e1.Offset = offsetAt lines i ∧ e1.Length = 0
      then 1 else 0) = c := ⟨_, rfl⟩
  have hc0le : c0 ≤ 1 := by
    rw [← hc0]
    split <;> omega
  have hsplitj : splitAfter (strJoin lines) = lines ++ [[]] := splitAfter_strJoin lines hg
  have hrdr : newLineRdr (strJoin lines) = mkRdr lines 0 := by
    unfold newLineRdr mkRdr
    rw [hsplitj]
    rfl
  have hlkp : editSet.lookup ⟨[("f", [e1, e2])]⟩ "f" = [e1, e2] := by
    simp [editSet.lookup, List.find?]
  have hqe1 : ∀ e, ([e1, e2] : List edit).head? = some e → offsetAt lines i ≤ e.Offset := by
    intro e he
    simp only [List.head?_cons, Option.some.injEq] at he
    rw [← he]
    exact h1a
  have hqe2 : ∀ e, ([e2] : List edit).head? = some e → offsetAt lines j ≤ e.Offset := by
    intro e he
    simp only [List.head?_cons, Option.some.injEq] at he
    rw [← he]
    exact h2a
  have hcp : (createPatch ⟨[("f", [e1, e2])]⟩ "f" (strJoin lines)).hunks =
      createPatchLoop (lines.length + 2) (mkRdr lines 0) .HUNK_NOT_STARTED [e1, e2] [] := by
    unfold createPatch
    rw [if_neg (by simp)]
    show createPatchLoop ((newLineRdr (strJoin lines)).remaining.length + 1)
      (newLineRdr (strJoin lines)) .HUNK_NOT_STARTED
      (editSet.lookup ⟨[("f", [e1, e2])]⟩ "f") [] = _
    rw [hrdr, hlkp]
    congr 1
    show (mkRdr lines 0).remaining.length + 1 = lines.length + 2
    show ((lines ++ [[]]).drop 0).length + 1 = lines.length + 2
    simp
  have hchar : (createPatch ⟨[("f", [e1, e2])]⟩ "f" (strJoin lines)).hunks.length =
      if 2 * num_ctx_lines - c0 ≤ j - i - 1 then 2 else 1 := by
    rw [hcp]
    rw [runNotStarted lines hg [e1, e2] i (by omega) hqe1
      i 0 (lines.length + 2) [] (by omega) (by omega)]
    rw [attachFromNotStarted lines hg i hi e1 [e2] (lines.length + 2 - i) []
      (by omega) h1a h1b
      (by
        intro e2' he
        simp only [List.head?_cons, Option.some.injEq] at he
        rw [← he]
        exact le_trans (offsetAt_mono lines (by omega : i + 1 ≤ j)) h2a)]
    rw [hc0]
    by_cases hsp : 2 * num_ctx_lines - c0 ≤ j - i - 1
    · rw [if_pos hsp]
      rcases runEditAdded lines hg [e2] j (by omega) hqe2
        (2 * num_ctx_lines - 1 - c0) (i + 1) (lines.length + 2 - i - 1) c0
        ((startHunk (mkRdr lines (i + 1))).addEdit e1) []
        (by unfold num_ctx_lines at *; omega) (by omega)
        (by unfold num_ctx_lines at *; omega) with ⟨hA, hhA⟩
      rw [hhA]
      rw [editAddedCloseStep lines hg [e2] j (by omega) hqe2
        (i + 1 + (2 * num_ctx_lines - 1 - c0))
        (lines.length + 2 - i - 1 - (2 * num_ctx_lines - 1 - c0))
        (c0 + (2 * num_ctx_lines - 1 - c0)) hA []
        (by unfold num_ctx_lines at *; omega) (by omega)
        (by unfold num_ctx_lines at *; omega)]
      rw [runNotStarted lines hg [e2] j (by omega) hqe2
        (j - (i + 1 + (2 * num_ctx_lines - 1 - c0) + 1))
        (i + 1 + (2 * num_ctx_lines - 1 - c0) + 1)
        (lines.length + 2 - i - 1 - (2 * num_ctx_lines - 1 - c0) - 1)
        ([] ++ [hA.addLine (mkRdr lines (i + 1 + (2 * num_ctx_lines - 1 - c0) + 1)).line])
        (by unfold num_ctx_lines at *; omega) (by unfold num_ctx_lines at *; omega)]
      rw [attachFromNotStarted lines hg j hj e2 []
        (lines.length + 2 - i - 1 - (2 * num_ctx_lines - 1 - c0) - 1 -
          (j - (i + 1 + (2 * num_ctx_lines - 1 - c0) + 1)))
        ([] ++ [hA.addLine (mkRdr lines (i + 1 + (2 * num_ctx_lines - 1 - c0) + 1)).line])
        (by unfold num_ctx_lines at *; omega) h2a h2b
        (by intro e2' he; simp at he)]
      rcases runEditAddedEnd lines hg (lines.length - (j + 1)) (j + 1)
        (lines.length + 2 - i - 1 - (2 * num_ctx_lines - 1 - c0) - 1 -
          (j - (i + 1 + (2 * num_ctx_lines - 1 - c0) + 1)) - 1)
        (if e2.Offset = offsetAt lines j ∧ e2.Length = 0 then 1 else 0)
        ((startHunk (mkRdr lines (j + 1))).addEdit e2)
        ([] ++ [hA.addLine (mkRdr lines (i + 1 + (2 * num_ctx_lines - 1 - c0) + 1)).line])
        (by omega) (by unfold num_ctx_lines at *; omega) with ⟨hB, hhB⟩
      rw [hhB]
      simp
    · rw [if_neg hsp]
      rcases runEditAdded lines hg [e2] j (by omega) hqe2
        (j - i - 1) (i + 1) (lines.length + 2 - i - 1) c0
        ((startHunk (mkRdr lines (i + 1))).addEdit e1) []
        (by omega) (by omega) (by unfold num_ctx_lines at *; omega) with ⟨hA, hhA⟩
      rw [hhA, show i + 1 + (j - i - 1) = j by omega]
      rw [attachFromEditAdded lines hg j hj e2 []
        (lines.length + 2 - i - 1 - (j - i - 1)) (c0 + (j - i - 1)) hA []
        (by omega) h2a h2b
        (by intro e2' he; simp at he)]
      rcases runEditAddedEnd lines hg (lines.length - (j + 1)) (j + 1)
        (lines.length + 2 - i - 1 - (j - i - 1) - 1)
        (if e2.Offset = offsetAt lines j ∧ e2.Length = 0 then 1 else 0)
        ((hA.addLine (mkRdr lines (j + 1)).line).addEdit e2) []
        (by omega) (by omega) with ⟨hB, hhB⟩
      rw [hhB]
      simp
  rw [hc0]
  refine ⟨hchar, ?_, ?_, ?_⟩
  · intro hge
    rw [hchar, if_pos (by unfold num_ctx_lines at *; omega)]
  · intro hg5 hnot
    have hz : c0 = 0 := by rw [← hc0, if_neg hnot]
    rw [hchar, if_neg (by rw [hz]; unfold num_ctx_lines at *; omega)]
  · intro hg5 hins
    have ho : c0 = 1 := by rw [← hc0, if_pos hins]
    rw [hchar, if_pos (by rw [ho]; unfold num_ctx_lines at *; omega)]

/-- Witness for C6 amended: twenty lines `"x\n"`, a one-character
replacement inside line 5 and a one-character deletion inside line 11
(five untouched lines apart). -/
theorem C6_hunk_threshold_amended_witness :
    ((createPatch ⟨[("f", [⟨8, 1, ['Y']⟩, ⟨20, 1, []⟩])]⟩ "f"
        (strJoin (List.replicate 20 ['x', '\n']))).hunks.length =
      if 2 * num_ctx_lines -
          (if (⟨8, 1, ['Y']⟩ : edit).Offset = offsetAt (List.replicate 20 ['x', '\n']) 4 ∧
            (⟨8, 1, ['Y']⟩ : edit).Length = 0 then 1 else 0) ≤ 10 - 4 - 1
      then 2 else 1) ∧
    (2 * num_ctx_lines ≤ 10 - 4 - 1 →
      (createPatch ⟨[("f", [⟨8, 1, ['Y']⟩, ⟨20, 1, []⟩])]⟩ "f"
        (strJoin (List.replicate 20 ['x', '\n']))).hunks.length = 2) ∧
    (10 - 4 - 1 = 2 * num_ctx_lines - 1 →
      ¬((⟨8, 1, ['Y']⟩ : edit).Offset = offsetAt (List.replicate 20 ['x', '\n']) 4 ∧
        (⟨8, 1, ['Y']⟩ : edit).Length = 0) →
      (createPatch ⟨[("f", [⟨8, 1, ['Y']⟩, ⟨20, 1, []⟩])]⟩ "f"
        (strJoin (List.replicate 20 ['x', '\n']))).hunks.length = 1) ∧
    (10 - 4 - 1 = 2 * num_ctx_lines - 1 →
      (⟨8, 1, ['Y']⟩ : edit).Offset = offsetAt (List.replicate 20 ['x', '\n']) 4 ∧
        (⟨8, 1, ['Y']⟩ : edit).Length = 0 →
      (createPatch ⟨[("f", [⟨8, 1, ['Y']⟩, ⟨20, 1, []⟩])]⟩ "f"
        (strJoin (List.replicate 20 ['x', '\n']))).hunks.length = 2) :=
  C6_hunk_threshold_amended (List.replicate 20 ['x', '\n']) 4 10 ⟨8, 1, ['Y']⟩ ⟨20, 1, []⟩
    (by
      intro l hl
      rw [List.eq_of_mem_replicate hl]
      unfold goodLine
      decide)
    (by decide) (by decide) (by decide) (by decide) (by decide) (by decide)

/-- C9: for nonempty inputs — the only case in which `Diff` runs the greedy
search — the forward search `dLoop`, invoked exactly as `Diff` invokes it,
returns a result rather than exhausting its iteration budget: the
`panic("Length of SES longer than max (impossible)")` branch, modelled by
`none`, is unreachable.  The search fires at the point `(|a|, |b|)` on
diagonal `|a| - |b|`, at the first candidate `d` for which some diagonal's
extended point reaches `(|a|, |b|)` — namely the reference edit distance
`|a| + |b| - 2·lcs a b` — and this `d` is at most `|a| + |b|`. -/
theorem C9_search_terminates (a b : List Str)
    (hn : 1 ≤ a.length) (hm : 1 ≤ b.length) :
    ∃ res : FwdResult,
      dLoop a b (b.length + a.length) (b.length + a.length + 1) 0
        ((List.replicate (2 * (b.length + a.length)) (0 : Int)).set
          (b.length + a.length + 1) 0) [] = some res ∧
      res.x = a.length ∧ res.y = (b.length : Int) ∧
      res.k = (a.length : Int) - (b.length : Int) ∧
      res.d + 2 * lcs a b = a.length + b.length ∧
      res.d ≤ a.length + b.length ∧
      ∀ (d' x y : Nat), ExtReach a b x y d' → a.length ≤ x → b.length ≤ y →
        res.d ≤ d' := by
  obtain ⟨res, h1, h2, h3, h4, h5, h6, h7⟩ := dLoop_run a b hn hm
  exact ⟨res, h1, h2, h3, h4, h5, by omega, h6⟩

/-- C9 witness: the search on `a = ["x"]`, `b = ["y", "x"]` terminates at
the corner with `d = 1`. -/
theorem C9_search_terminates_witness :
    1 ≤ ([['x']] : List Str).length ∧ 1 ≤ ([['y'], ['x']] : List Str).length ∧
    ∃ res : FwdResult,
      dLoop [['x']] [['y'], ['x']] 3 4 0 ((List.replicate 6 (0 : Int)).set 4 0) [] =
        some res ∧
      res.x = 1 ∧ res.y = 2 ∧ res.k = 1 - 2 ∧
      res.d + 2 * lcs [['x']] [['y'], ['x']] = 3 ∧
      res.d ≤ 3 ∧
      ∀ (d' x y : Nat), ExtReach [['x']] [['y'], ['x']] x y d' → 1 ≤ x → 2 ≤ y →
        res.d ≤ d' :=
  ⟨by decide, by decide, C9_search_terminates [['x']] [['y'], ['x']] (by decide) (by decide)⟩

/-- C2 amended: for nonempty `a` and `b` (the counterexample shows the
original universal claim fails for empty `a`), whenever `Diff` completes
without a panic the number of edits recorded for the file equals
`|a| + |b| - 2·lcs a b`, stated additively. -/
theorem C2_minimality_amended (filename : String) (a b : List Str) (es : editSet)
    (hn : 1 ≤ a.length) (hm : 1 ≤ b.length)
    (hdiff : Diff filename a b = some es) :
    (es.lookup filename).length + 2 * lcs a b = a.length + b.length := by
  obtain ⟨res, h1, h2, h3, h4, h5, h6, h7⟩ := dLoop_run a b hn hm
  simp only [Diff] at hdiff
  rw [if_neg (show ¬(a.length = 0 ∧ b.length = 0) by omega),
    if_neg (show ¬a.length = 0 by omega), if_neg (show ¬b.length = 0 by omega)] at hdiff
  rw [h1] at hdiff
  have hce : constructEditSet filename a b res.vs = some es := hdiff
  unfold constructEditSet at hce
  have hcnt := constructLoop_count filename a b (b.length + a.length) res.vs.reverse
    ((a.length : Int) - (b.length : Int)) NewEditSet es hce
  have hnil : NewEditSet.lookup filename = [] := rfl
  rw [hnil, List.length_reverse, h7] at hcnt
  simp only [List.length_nil] at hcnt
  omega

/-- C2 amended witness: on `a = ["x"]`, `b = ["y", "x"]` the returned
EditSet holds exactly one edit, and `1 + 2·lcs = 1 + 2 = |a| + |b|`. -/
theorem C2_minimality_amended_witness :
    1 ≤ ([['x']] : List Str).length ∧ 1 ≤ ([['y'], ['x']] : List Str).length ∧
    Diff "f" [['x']] [['y'], ['x']] = some (⟨[("f", [⟨0, 0, ['y']⟩])]⟩ : editSet) ∧
    ((⟨[("f", [⟨0, 0, ['y']⟩])]⟩ : editSet).lookup "f").length +
        2 * lcs [['x']] [['y'], ['x']] =
      ([['x']] : List Str).length + ([['y'], ['x']] : List Str).length :=
  ⟨by decide, by decide, by decide,
    C2_minimality_amended "f" [['x']] [['y'], ['x']] _ (by decide) (by decide) (by decide)⟩

/-- C10: for every Patch produced by `createPatch`, the `Edits` enumeration
is a single-key mapping from the patch's filename (the `createPatch` key)
to the concatenation of the per-hunk edit lists in hunk order, and every
edit stored in a hunk is an edit of the input EditSet whose offset has been
rebased relative to that hunk's start offset. -/
theorem C10_patch_edits (es : editSet) (key : String) (input : Str) :
    (createPatch es key input).Edits =
      [(key, ((createPatch es key input).hunks.map hunk.edits).flatten)] ∧
    ∀ h ∈ (createPatch es key input).hunks, ∀ e' ∈ h.edits,
      ∃ e ∈ es.lookup key, e' = e.RelativeToOffset h.startOffset := by
  constructor
  · have hf : (createPatch es key input).filename = key := by
      unfold createPatch; split <;> rfl
    simp [Patch.Edits, hf]
  · unfold createPatch
    split
    · intro h hh; cases hh
    · exact createPatchLoop_prov (es.lookup key) _ _ _ _ _ (fun x hx => hx)
        (by intro h hh; cases hh) (by intro h0 hh0; cases hh0)

end Godoctor
